import Mathlib

/-!
Verification development for the import-path rewriting tool
(src/import-fix.ts, src/export-check.ts, src/index.ts).

Strings are modelled as lists of characters (`Str`).  The functions of the
`node:path` POSIX module that the source uses (`parse`, `format`, `resolve`,
`relative`, `dirname`) are embedded below, faithful to their Node.js
implementations for the inputs that occur in this program (an absolute
working directory).  The file system is modelled as an association list
from absolute path to file content; `existsSync` is membership.  The
`typescript` parser used by the export check is abstracted as an oracle
returning the re-export declaration texts of a file.
-/

/-- Character-list strings, the working representation of every path and
file content in this development. -/
abbrev Str := List Char

/-- Converts a Lean string literal to the character-list representation. -/
def ofS (s : String) : Str := s.data

/-- True when the path begins with the POSIX separator, i.e. is absolute. -/
def isAbsStr (s : Str) : Bool :=
  match s with
  | [] => false
  | c :: _ => c = '/'

/-- Splits a string on the separator character, like JavaScript
`s.split("/")`: the result is never empty, and empty segments are kept. -/
def splitSegs : Str → List Str
  | [] => [[]]
  | c :: rest =>
    if c = '/' then [] :: splitSegs rest
    else
      match splitSegs rest with
      | [] => [[c]]
      | s :: ss => (c :: s) :: ss

/-- Joins segments with the separator, like `segs.join("/")`. -/
def joinSegs : List Str → Str
  | [] => []
  | [s] => s
  | s :: t :: rest => s ++ '/' :: joinSegs (t :: rest)

/-- One step of Node's `normalizeString`: consumes a segment, where `acc`
holds the output segments in reverse.  Empty and `.` segments are dropped;
`..` pops the previous segment unless it is itself `..` or absent, in which
case it is kept only when `allow` (Node's `allowAboveRoot`) is true. -/
def normPush (allow : Bool) (acc : List Str) (seg : Str) : List Str :=
  if seg = [] ∨ seg = ['.'] then acc
  else if seg = ['.', '.'] then
    match acc with
    | [] => if allow then seg :: acc else acc
    | top :: acc2 => if top = ['.', '.'] then (if allow then seg :: acc else acc) else acc2
  else seg :: acc

/-- Node's `normalizeString` at the segment level: resolves `.` and `..`
segments and removes empty ones. -/
def normSegs (allow : Bool) (segs : List Str) : List Str :=
  (segs.foldl (normPush allow) []).reverse

/-- Scans the arguments of `path.resolve` from the right, collecting the
paths that take part in the result: everything up to and including the
rightmost absolute argument, with empty arguments skipped.  Returns the
used paths in order together with whether the result is absolute. -/
def pickChain : List Str → (List Str × Bool)
  | [] => ([], false)
  | a :: rest =>
    let p := pickChain rest
    if p.2 then p
    else if a = [] then p
    else (a :: p.1, isAbsStr a)

/-- Node's `path.resolve` (POSIX), with the process working directory made
explicit as the first argument. -/
def jsResolve (cwd : Str) (args : List Str) : Str :=
  let p := pickChain (cwd :: args)
  let segs := normSegs (!p.2) (splitSegs (joinSegs p.1))
  if p.2 then '/' :: joinSegs segs
  else if segs = [] then ['.'] else joinSegs segs

/-- The normalized segment list produced inside `jsResolve`; when the
working directory is absolute, `jsResolve cwd args` is the root followed by
the join of these segments. -/
def resSegs (cwd : Str) (args : List Str) : List Str :=
  normSegs false (splitSegs (joinSegs (pickChain (cwd :: args)).1))

/-- The segments of a resolved absolute path, without the leading root. -/
def absSegs (p : Str) : List Str := (splitSegs p).filter (fun s => s ≠ [])

/-- Strips the longest common prefix of two segment lists, returning the
two remainders. -/
def stripCommon : List Str → List Str → (List Str × List Str)
  | [], ts => ([], ts)
  | fs, [] => (fs, [])
  | f :: fs, t :: ts =>
    if f = t then stripCommon fs ts else (f :: fs, t :: ts)

/-- Node's `path.relative` (POSIX) at the segment level, faithful to the
string implementation whenever the working directory is absolute (then both
resolved paths are normalized absolute paths, which is every use in this
program). -/
def jsRelative (cwd src dst : Str) : Str :=
  let f := jsResolve cwd [src]
  let t := jsResolve cwd [dst]
  if f = t then []
  else
    let p := stripCommon (absSegs f) (absSegs t)
    joinSegs (p.1.map (fun _ => ['.', '.']) ++ p.2)

/-- Finds the first separator in a string, returning the parts before and
after it. -/
def splitAtFirstSlash : Str → Option (Str × Str)
  | [] => none
  | c :: rest =>
    if c = '/' then some ([], rest)
    else (splitAtFirstSlash rest).map (fun p => (c :: p.1, p.2))

/-- Node's `path.dirname` (POSIX): the input up to the last separator that
precedes the basename, with Node's exact handling of roots and trailing
separators. -/
def jsDirname (s : Str) : Str :=
  match s with
  | [] => ['.']
  | c0 :: rest =>
    let hasRoot := c0 = '/'
    let r1 := rest.reverse.dropWhile (fun c => c = '/')
    match splitAtFirstSlash r1 with
    | none => if hasRoot then ['/'] else ['.']
    | some p =>
      let e := 1 + p.2.length
      if hasRoot ∧ e = 1 then ['/', '/'] else (c0 :: rest).take e

/-- The record returned by Node's `path.parse`. -/
structure ParsedPath where
  root : Str
  dir : Str
  base : Str
  ext : Str
  name : Str
deriving DecidableEq, Repr

/-- Splits a basename at its last dot, returning the part before the dot
and the part after it; `none` when the basename has no dot. -/
def lastDotSplit : Str → Option (Str × Str)
  | [] => none
  | c :: rest =>
    match lastDotSplit rest with
    | some p => some (c :: p.1, p.2)
    | none => if c = '.' then some ([], rest) else none

/-- Node's extension rule for a basename: no extension when there is no
dot, when the last dot is the first character, or when the basename is
`..`; otherwise the extension runs from the last dot.  Returns the pair of
name and extension. -/
def extSplit (b : Str) : Str × Str :=
  if b = ['.', '.'] then (b, [])
  else
    match lastDotSplit b with
    | none => (b, [])
    | some p => if p.1 = [] then (b, []) else (p.1, '.' :: p.2)

/-- Node's `path.parse` (POSIX). -/
def jsParse (s : Str) : ParsedPath :=
  if s = [] then ⟨[], [], [], [], []⟩
  else
    let ab := isAbsStr s
    let root : Str := if ab then ['/'] else []
    let body := if ab then s.drop 1 else s
    match (splitSegs body).reverse.dropWhile (fun x => x = []) with
    | [] => ⟨root, root, [], [], []⟩
    | b :: restR =>
      let ne := extSplit b
      let dir := if restR = [] then root else root ++ joinSegs restR.reverse
      ⟨root, dir, b, ne.2, ne.1⟩

/-- Node's `formatExt`: a nonempty extension gains a leading dot when it
lacks one. -/
def formatExt (e : Str) : Str :=
  match e with
  | [] => []
  | c :: r => if c = '.' then c :: r else '.' :: c :: r

/-- Node's `path.format` (POSIX). -/
def jsFormat (p : ParsedPath) : Str :=
  let dir := if p.dir = [] then p.root else p.dir
  let base := if p.base = [] then p.name ++ formatExt p.ext else p.base
  if dir = [] then base
  else if dir = p.root then dir ++ base
  else dir ++ '/' :: base

/-!
The alias table (`PathsMap` in src/import-fix.ts).  A JavaScript object
with string keys is modelled as an insertion-ordered association list in
which assigning to an existing key updates it in place.
-/

/-- The alias table: association list from alias prefix to target
directory, in insertion order. -/
abbrev PathsMap := List (Str × Str)

/-- JavaScript object assignment `m[k] = v`: updates the existing entry in
place, otherwise appends. -/
def objSet : List (Str × Str) → Str → Str → List (Str × Str)
  | [], k, v => [(k, v)]
  | e :: rest, k, v =>
    if e.1 = k then (k, v) :: rest else e :: objSet rest k v

/-- JavaScript property lookup `m[k]` on an association list. -/
def objGet (m : List (Str × Str)) (k : Str) : Option Str :=
  (m.find? (fun e => e.1 == k)).map (fun e => e.2)

/-- One iteration of the `getPathsMap` loop: an entry is registered only
when its key and its first target directory both end in the
single-wildcard suffix, with the trailing star stripped from each side. -/
def pathsStep (m : PathsMap) (e : Str × List Str) : PathsMap :=
  match e.2.head? with
  | none => m
  | some d =>
    if (ofS "/*").isSuffixOf e.1 && (ofS "/*").isSuffixOf d then
      objSet m e.1.dropLast d.dropLast
    else m

/-- Embeds `getPathsMap` from src/import-fix.ts: keeps only the tsconfig
`paths` entries whose key and whose first target both end in the
single-wildcard suffix, strips the trailing star character from each side,
and registers the pair.  The tsconfig loading itself is external; its
`paths` object is the input. -/
def getPathsMap (tsPaths : List (Str × List Str)) : PathsMap :=
  tsPaths.foldl pathsStep []

/-- The insertion sort used to embed `Object.keys(pathsMap).sort((a, b) =>
b.length - a.length)`: stable, by descending length, matching the stable
sort required of JavaScript engines. -/
def insDesc (x : Str) : List Str → List Str
  | [] => [x]
  | y :: ys => if y.length < x.length then x :: y :: ys else y :: insDesc x ys

/-- Alias keys sorted by descending length, ties kept in insertion order. -/
def sortAliases (ks : List Str) : List Str :=
  ks.foldl (fun acc k => insDesc k acc) []

/-- The alias loop of `resolveImportPath`: the first sorted alias that is a
string prefix of the specifier and whose target directory is truthy (i.e.
nonempty) resolves the remainder of the specifier against that target. -/
def aliasResolveLoop (cwd ip : Str) (pm : PathsMap) : List Str → Option Str
  | [] => none
  | a :: rest =>
    if a.isPrefixOf ip then
      let d := (objGet pm a).getD []
      if d = [] then aliasResolveLoop cwd ip pm rest
      else some (jsResolve cwd [d, ip.drop a.length])
    else aliasResolveLoop cwd ip pm rest

/-- Embeds `resolveImportPath` from src/import-fix.ts: alias resolution
with the keys sorted by descending length, falling back to resolution
relative to the containing file's directory. -/
def resolveImportPath (cwd ip filePath : Str) (pm : PathsMap) : Str :=
  match aliasResolveLoop cwd ip pm (sortAliases (pm.map (fun e => e.1))) with
  | some r => r
  | none => jsResolve cwd [jsDirname filePath, ip]

/-- Embeds `changeExtension` from src/import-fix.ts: sets the extension and
clears the cached base so that `path.format` honours the new extension. -/
def changeExtension (p : ParsedPath) (newExt : Str) : ParsedPath :=
  { p with ext := newExt, base := [] }

/-- The candidate on-disk extensions, in probe order
(`ALLOWED_EXTENSIONS`). -/
def ALLOWED_EXTENSIONS : List Str := [ofS ".ts", ofS ".tsx", ofS ".d.ts"]

/-- The extensions TypeScript resolution may write in source text
(`tsExtensionLookups`). -/
def tsExtensionLookups : List Str :=
  [[], ofS ".js", ofS ".jsx", ofS ".ts", ofS ".tsx"]

/-- The pair of extension and base returned by the extension resolver. -/
structure ExtBase where
  ext : Str
  base : Str
deriving DecidableEq, Repr

/-- The probe loop of `getNewExtensionPathParts`: the first candidate
extension whose substituted path exists on disk wins. -/
def extProbe (fsys : Str → Bool) (p : ParsedPath) : List Str → Option ExtBase
  | [] => none
  | e :: rest =>
    let tp := changeExtension p e
    if fsys (jsFormat tp) then some ⟨tp.ext, tp.base⟩ else extProbe fsys p rest

/-- Embeds `getNewExtensionPathParts` from src/import-fix.ts: a path whose
extension is outside the lookup set passes through unchanged; otherwise the
candidate extensions are probed in order against the file system. -/
def getNewExtensionPathParts (fsys : Str → Bool) (p : ParsedPath) :
    Option ExtBase :=
  if !(tsExtensionLookups.contains p.ext) then some ⟨p.ext, p.base⟩
  else extProbe fsys p ALLOWED_EXTENSIONS

/-- The loop of `getAliasPathParts`: walks the alias entries in insertion
order; the first target directory the import path does not escape (its
relative path does not start with the two-dot marker) produces the
directory of the alias-form path. -/
def aliasCoverLoop (cwd importPath : Str) : PathsMap → Option Str
  | [] => none
  | e :: rest =>
    let rel := jsRelative cwd e.2 importPath
    if (ofS "..").isPrefixOf rel then aliasCoverLoop cwd importPath rest
    else some (jsParse (e.1 ++ rel)).dir

/-- Embeds `getAliasPathParts` from src/import-fix.ts. -/
def getAliasPathParts (cwd : Str) (p : ParsedPath) (pm : PathsMap) :
    Option Str :=
  aliasCoverLoop cwd (jsFormat p) pm

/-- JavaScript `s.includes(g)`: whether `g` occurs as a contiguous
substring of `s`. -/
def strIncludes (g : Str) : Str → Bool
  | [] => g = []
  | c :: rest => g.isPrefixOf (c :: rest) || strIncludes g rest

/-- The two kinds of per-specifier diagnostics recorded by `fixImports`
(the console message text is abstracted to its content). -/
inductive SpecErr where
  | extNotFound (importPath : Str)
  | noAlias (importPath : Str)
deriving DecidableEq, Repr

/-- The outcome of the replace callback of `fixImports` for one specifier:
the new specifier text when it changed, and the diagnostics recorded. -/
structure SpecOut where
  newPath : Option Str
  errs : List SpecErr
deriving DecidableEq, Repr

/-- The transformation core of the replace callback in `fixImports`: the
reassembled `newImportParts` after the extension transform and the
conditional alias transform, together with the diagnostics, for a
specifier that passed the classification and ignore guards. -/
def transformParts (fsys : Str → Bool) (cwd : Str) (pm : PathsMap)
    (skipAlias : Bool) (filePath ip : Str) (isRel : Bool) :
    ParsedPath × List SpecErr :=
  let p0 := jsParse ip
  let resolved := resolveImportPath cwd ip filePath pm
  let rp := jsParse resolved
  let extRes := getNewExtensionPathParts fsys rp
  let p1 := match extRes with
    | some eb => { p0 with ext := eb.ext, base := eb.base }
    | none => p0
  let e1 : List SpecErr := match extRes with
    | some _ => []
    | none => [.extNotFound ip]
  let aliasRes : Option (Option Str) :=
    if isRel && !skipAlias then some (getAliasPathParts cwd rp pm) else none
  let p2 := match aliasRes with
    | some (some d) => { p1 with dir := d }
    | _ => p1
  let e2 : List SpecErr := match aliasRes with
    | some none => [.noAlias ip]
    | _ => []
  (p2, e1 ++ e2)

/-- Embeds the body of the `content.replace` callback in `fixImports`
(src/import-fix.ts lines 127-174): classification, ignore filtering, then
`transformParts` and the change decision. -/
def processImport (fsys : Str → Bool) (cwd : Str) (pm : PathsMap)
    (importIgnoreStrings : List Str) (skipAlias : Bool) (filePath ip : Str) :
    SpecOut :=
  let isRel := (ofS "./").isPrefixOf ip || (ofS "../").isPrefixOf ip
  let isAl := pm.any (fun e => e.1.isPrefixOf ip)
  if !(isRel || isAl) then ⟨none, []⟩
  else if importIgnoreStrings.any (fun g => strIncludes g ip) then ⟨none, []⟩
  else
    let pr := transformParts fsys cwd pm skipAlias filePath ip isRel
    let np := jsFormat pr.1
    if np = ip then ⟨none, pr.2⟩ else ⟨some np, pr.2⟩

/-!
The textual import scanner: an operational embedding of
`content.replace(IMPORT_PATTERN, cb)` with
`IMPORT_PATTERN = (?:import|from)\s+[qq]([^qq]+)[qq]$` under the `g` and
`m` flags.  For this pattern the regex engine is deterministic (the
character classes exclude the quotes, so no backtracking can succeed where
the greedy run failed), which the scanner below implements directly:
leftmost match, then continue after the match.
-/

/-- The whitespace class of the scanner; the JavaScript class also holds
rare Unicode space characters which never occur in the inputs considered
here. -/
def isJsWs (c : Char) : Bool :=
  c = ' ' || c = '\t' || c = '\n' || c = '\r' || c = '\x0b' || c = '\x0c'

/-- Whether a character is one of the two quote characters of the
pattern. -/
def isQuote (c : Char) : Bool := c.toNat = 39 || c = '"'

/-- Tries the keyword alternation of the pattern at the given position. -/
def kwSplit (s : Str) : Option (Str × Str) :=
  if (ofS "import").isPrefixOf s then some (ofS "import", s.drop 6)
  else if (ofS "from").isPrefixOf s then some (ofS "from", s.drop 4)
  else none

/-- Tries the whole pattern at the given position.  On success returns the
matched text, the captured specifier, and the rest of the input after the
match; the end-of-line anchor under the multiline flag accepts the end of
input or a following line terminator. -/
def matchAt (s : Str) : Option (Str × Str × Str) :=
  match kwSplit s with
  | none => none
  | some kwr =>
    let ws := kwr.2.takeWhile isJsWs
    let r1 := kwr.2.dropWhile isJsWs
    if ws = [] then none
    else
      match r1 with
      | [] => none
      | q :: r2 =>
        if !(isQuote q) then none
        else
          let ip := r2.takeWhile (fun c => !(isQuote c))
          let r3 := r2.dropWhile (fun c => !(isQuote c))
          if ip = [] then none
          else
            match r3 with
            | [] => none
            | q2 :: r4 =>
              if r4 = [] || r4.head? = some '\n' || r4.head? = some '\r' then
                some (kwr.1 ++ ws ++ q :: (ip ++ [q2]), ip, r4)
              else none

/-- JavaScript `s.replace(pat, repl)` with a plain (nonempty) string
pattern: replaces the first occurrence, leaves the string unchanged when
the pattern does not occur.  The dollar substitution of the replacement
string is not modelled (no specifier here contains a dollar sign). -/
def replaceFirst (s pat repl : Str) : Str :=
  match s with
  | [] => []
  | c :: rest =>
    if pat.isPrefixOf (c :: rest) then repl ++ (c :: rest).drop pat.length
    else c :: replaceFirst rest pat repl

/-- The result of scanning one file's content: the transformed text, the
per-specifier diagnostics, and the recorded changes in order. -/
structure ScanOut where
  text : Str
  errs : List SpecErr
  changes : List (Str × Str)
deriving DecidableEq, Repr

/-- The fuel-indexed scanner loop.  Each step consumes at least one input
character (`matchAt_rest_length`), so fuel equal to the input length never
runs out; the fuel makes the recursion structural so that concrete inputs
evaluate inside the kernel. -/
def scanFuel (g : Str → SpecOut) : Nat → Str → ScanOut
  | _, [] => ⟨[], [], []⟩
  | 0, c :: rest => ⟨c :: rest, [], []⟩
  | fuel + 1, c :: rest =>
    match matchAt (c :: rest) with
    | some m =>
      let so := g m.2.1
      let tail := scanFuel g fuel m.2.2
      match so.newPath with
      | none => ⟨m.1 ++ tail.text, so.errs ++ tail.errs, tail.changes⟩
      | some np =>
        ⟨replaceFirst m.1 m.2.1 np ++ tail.text, so.errs ++ tail.errs,
          (m.2.1, np) :: tail.changes⟩
    | none =>
      let tail := scanFuel g fuel rest
      ⟨c :: tail.text, tail.errs, tail.changes⟩

/-- Embeds `content.replace(IMPORT_PATTERN, cb)` for the per-specifier
decision function `g`: each match is replaced by the callback's result
(`match.replace(importPath, newImportPath)` on change, the match itself
otherwise), unmatched text is copied verbatim. -/
def scanContent (g : Str → SpecOut) (content : Str) : ScanOut :=
  scanFuel g content.length content

/-!
The whole-run layer: `fixImports`, `checkExports` and the exit code of
`main`.  The disk is an association list from absolute path to content;
relative paths are resolved against the working directory on every access,
as the Node file primitives do.  Files are read from the initial disk (in
the program every path is read before its own write and distinct files do
not interact), and `existsSync` is key membership on the initial disk.
-/

/-- The file system: association list from absolute path to content. -/
abbrev DiskFS := List (Str × Str)

/-- Reads a file, resolving the path against the working directory. -/
def fsRead (cwd : Str) (disk : DiskFS) (p : Str) : Option Str :=
  objGet disk (jsResolve cwd [p])

/-- Embeds `fss.existsSync`. -/
def fsExists (cwd : Str) (disk : DiskFS) (p : Str) : Bool :=
  (objGet disk (jsResolve cwd [p])).isSome

/-- Embeds `fs.writeFile`, overwriting in place. -/
def fsWrite (cwd : Str) (disk : DiskFS) (p c : Str) : DiskFS :=
  objSet disk (jsResolve cwd [p]) c

/-- The options of `fixImports` (`FixImportsOptions`). -/
structure FixOptions where
  write : Bool
  importIgnoreStrings : List Str
  skipAlias : Bool

/-- The terminal status of one `fixImports` run, mirroring its `Result`:
`ok` for a clean run, `errConfig` when the tsconfig cannot be loaded,
`errAttempt` when a file operation threw, `errImports` when per-specifier
diagnostics were collected. -/
inductive FixOutcome where
  | ok
  | errConfig
  | errAttempt
  | errImports
deriving DecidableEq, Repr

/-- The full result of a `fixImports` run: the disk after the run, the
per-file diagnostic log (`IMPORT_ERRORS`), the per-file change log
(`TRANSFORMED_IMPORTS`), and the returned status. -/
structure FixResult where
  disk : DiskFS
  importErrors : List (Str × List SpecErr)
  transformed : List (Str × List (Str × Str))
  outcome : FixOutcome
deriving DecidableEq, Repr

/-- The write phase of `fixImports` for one file: when the transformed
content differs from what was read and `write` mode is on, the file is
overwritten in place; otherwise the disk is untouched. -/
def writeStep (write : Bool) (cwd : Str) (d : DiskFS)
    (e : Str × Option (Str × ScanOut)) : DiskFS :=
  match e.2 with
  | some cso =>
    if cso.2.text = cso.1 then d
    else if write then fsWrite cwd d e.1 cso.2.text else d
  | none => d

/-- The read-and-scan phase of `fixImports` for one file: the file's
content from the initial disk (the reads all precede the writes) together
with its scan result, `none` when the read fails. -/
def fixFileScan (cwd : Str) (disk : DiskFS) (pm : PathsMap) (igs : List Str)
    (sa : Bool) (fp : Str) : Str × Option (Str × ScanOut) :=
  match fsRead cwd disk fp with
  | none => (fp, none)
  | some content =>
    (fp, some (content,
      scanContent
        (processImport (fun p => fsExists cwd disk p) cwd pm igs sa fp)
        content))

/-- Embeds `fixImports` from src/import-fix.ts.  `tsPaths` is the `paths`
object of the discovered tsconfig, `none` when no tsconfig is found. -/
def fixImports (tsPaths : Option (List (Str × List Str))) (cwd : Str)
    (disk : DiskFS) (filePaths : List Str) (opts : FixOptions) : FixResult :=
  match tsPaths with
  | none => ⟨disk, [], [], .errConfig⟩
  | some ps =>
    let pm := getPathsMap ps
    let per : List (Str × Option (Str × ScanOut)) :=
      filePaths.map
        (fixFileScan cwd disk pm opts.importIgnoreStrings opts.skipAlias)
    let importErrors := per.filterMap (fun e =>
      match e.2 with
      | some cso => if cso.2.errs = [] then none else some (e.1, cso.2.errs)
      | none => none)
    let transformed := per.filterMap (fun e =>
      match e.2 with
      | some cso =>
        if cso.2.changes = [] then none else some (e.1, cso.2.changes)
      | none => none)
    let newDisk := per.foldl (writeStep opts.write cwd) disk
    let anyReadFail := per.any (fun e => e.2.isNone)
    let outcome : FixOutcome :=
      if anyReadFail then .errAttempt
      else if importErrors.isEmpty then .ok
      else .errImports
    ⟨newDisk, importErrors, transformed, outcome⟩

/-- The result of a `checkExports` run. -/
structure ExportResult where
  exportErrors : List (Str × List Str)
  ok : Bool
deriving DecidableEq, Repr

/-- Embeds `checkExports` from src/export-check.ts.  The TypeScript parser
is abstracted as the oracle `exportDecls`, which returns the re-export
declaration texts found in a file's source.  Files whose parsed name is
`index` are skipped before being read. -/
def checkExports (exportDecls : Str → List Str) (cwd : Str) (disk : DiskFS)
    (filePaths : List Str) : ExportResult :=
  let per : List (Str × Option (List Str)) :=
    filePaths.map (fun fp =>
      if (jsParse fp).name = ofS "index" then (fp, some [])
      else
        match fsRead cwd disk fp with
        | none => (fp, none)
        | some content => (fp, some (exportDecls content)))
  let exportErrors := per.filterMap (fun e =>
    match e.2 with
    | some ds => if ds = [] then none else some (e.1, ds)
    | none => none)
  let anyReadFail := per.any (fun e => e.2.isNone)
  ⟨exportErrors, !anyReadFail && exportErrors.isEmpty⟩

/-- Embeds the error aggregation of `tsImportFix` and the exit-code rule of
`main` in src/index.ts: exit code 0 exactly when neither the rewrite pass
nor the export check returned an error. -/
def mainExitCode (tsPaths : Option (List (Str × List Str)))
    (exportDecls : Str → List Str) (cwd : Str) (disk : DiskFS)
    (filePaths : List Str) (opts : FixOptions) : Nat :=
  let r1 := fixImports tsPaths cwd disk filePaths opts
  let r2 := checkExports exportDecls cwd disk filePaths
  if r1.outcome = .ok ∧ r2.ok = true then 0 else 1

/-- Restates the Import Path Resolver exactly as the specification words
it: the first length-sorted alias key that is a string prefix of the
specifier wins unconditionally, the remainder being resolved against that
alias's target directory.  Compared against `resolveImportPath` (which
additionally skips aliases whose stored target is empty) in claim C2. -/
def resolveImportPathSpec (cwd ip filePath : Str) (pm : PathsMap) : Str :=
  match (sortAliases (pm.map (fun e => e.1))).find? (fun a => a.isPrefixOf ip) with
  | some a => jsResolve cwd [(objGet pm a).getD [], ip.drop a.length]
  | none => jsResolve cwd [jsDirname filePath, ip]

/-!
The scenario of §8 of the specification: alias map tilde-to-src, a file
`src/a.ts` importing `./b`, and `src/b.ts` on disk, with the working
directory `/p`.
-/

/-- The tsconfig `paths` object of the scenario. -/
def scenarioPaths : List (Str × List Str) := [(ofS "~/*", [ofS "./src/*"])]

/-- The disk of the scenario. -/
def scenarioDisk : DiskFS :=
  [(ofS "/p/src/a.ts", ofS "import x from \"./b\""),
   (ofS "/p/src/b.ts", ofS "export const x = 1")]

/-- The candidate file list of the scenario. -/
def scenarioFiles : List Str := [ofS "src/a.ts", ofS "src/b.ts"]

/-- A legal alias table with nested keys: the shorter key covers the file
on disk, the longer key captures the rewritten specifier. -/
def c3Pm : PathsMap := [(ofS "x/", ofS "/t/"), (ofS "x/y/", ofS "/u/")]

/-- The tsconfig `paths` object producing the nested table `c3Pm`. -/
def c4Paths : List (Str × List Str) :=
  [(ofS "x/*", [ofS "/t/*"]), (ofS "x/y/*", [ofS "/u/*"])]

/-- A disk on which a second run of the rewrite pass changes the output of
the first run: the rewritten specifier re-resolves through the longer
alias key into a directory holding a different candidate extension. -/
def c4Disk : DiskFS :=
  [(ofS "/t/f.ts", ofS "import a from \"./y/z\""),
   (ofS "/t/y/z.ts", ofS "export const a = 1"),
   (ofS "/u/z.tsx", ofS "export const a = 2")]

/-- The candidate file list for the nested-alias runs. -/
def c4Files : List Str := [ofS "/t/f.ts"]

/-- A normal path segment: nonempty, not a dot segment, and free of the
separator.  The segments of every resolved absolute path are normal. -/
def SegNormal (x : Str) : Prop :=
  x ≠ [] ∧ x ≠ ['.'] ∧ x ≠ ['.', '.'] ∧ ('/' ∈ x → False)

instance (x : Str) : Decidable (SegNormal x) := by
  unfold SegNormal
  infer_instance

/-- The alias table refuting C2 as stated: the key matches but its target
is the empty string, which the code skips. -/
def c2Pm : PathsMap := [(ofS "~/", [])]


theorem matchAt_rest_length {s mt ip r : Str}
    (h : matchAt s = some (mt, ip, r)) : r.length < s.length := by
  unfold matchAt at h
  cases hkw : kwSplit s with
  | none => simp [hkw] at h
  | some kwr =>
    have h3 : kwr.2.length < s.length := by
      unfold kwSplit at hkw
      split at hkw
      · rename_i hpre
        cases hkw
        have h6 : 6 ≤ s.length := by
          have := (List.isPrefixOf_iff_prefix.mp hpre).length_le
          simpa [ofS] using this
        show (s.drop 6).length < s.length
        rw [List.length_drop]
        omega
      · split at hkw
        · rename_i hpre
          cases hkw
          have h4 : 4 ≤ s.length := by
            have := (List.isPrefixOf_iff_prefix.mp hpre).length_le
            simpa [ofS] using this
          show (s.drop 4).length < s.length
          rw [List.length_drop]
          omega
        · cases hkw
    rw [hkw] at h
    simp only at h
    split at h
    · cases h
    · cases hr1 : kwr.2.dropWhile isJsWs with
      | nil => rw [hr1] at h; cases h
      | cons q r2 =>
        have h2 : r2.length + 1 ≤ kwr.2.length := by
          have hle := (List.dropWhile_sublist (l := kwr.2) (p := isJsWs)).length_le
          rw [hr1] at hle
          simpa using hle
        rw [hr1] at h
        simp only at h
        split at h
        · cases h
        · split at h
          · cases h
          · cases hr3 : r2.dropWhile (fun c => !(isQuote c)) with
            | nil => rw [hr3] at h; cases h
            | cons q2 r4 =>
              have h1 : r4.length + 1 ≤ r2.length := by
                have hle :=
                  (List.dropWhile_sublist (l := r2)
                    (p := fun c => !(isQuote c))).length_le
                rw [hr3] at hle
                simpa using hle
              rw [hr3] at h
              simp only at h
              split at h
              · cases h
                omega
              · cases h

/-- C6: with alias map mapping the tilde prefix to `./src/`, a file
`src/a.ts` containing the line `import x from "./b"` and `src/b.ts` on
disk, the rewrite pass turns the specifier into `~/b.ts` when `skipAlias`
is false, and into `./b.ts` when `skipAlias` is true (extension
normalization still runs, alias rewriting is disabled). -/
theorem c6_scenario_specifiers :
    (fixImports (some scenarioPaths) (ofS "/p") scenarioDisk scenarioFiles
        ⟨true, [], false⟩).transformed =
      [(ofS "src/a.ts", [(ofS "./b", ofS "~/b.ts")])] ∧
    (fixImports (some scenarioPaths) (ofS "/p") scenarioDisk scenarioFiles
        ⟨true, [], true⟩).transformed =
      [(ofS "src/a.ts", [(ofS "./b", ofS "./b.ts")])] ∧
    fsRead (ofS "/p")
        (fixImports (some scenarioPaths) (ofS "/p") scenarioDisk scenarioFiles
          ⟨true, [], false⟩).disk (ofS "src/a.ts") =
      some (ofS "import x from \"~/b.ts\"") := by
  decide

/-!
Claim C9: the invariant of the alias table built by the loader.
-/

theorem objSet_mem {m : List (Str × Str)} {k v : Str} {x : Str × Str}
    (h : x ∈ objSet m k v) : x = (k, v) ∨ x ∈ m := by
  induction m with
  | nil => simpa [objSet] using h
  | cons e rest ih =>
    unfold objSet at h
    split at h
    · rcases List.mem_cons.mp h with h1 | h1
      · exact Or.inl h1
      · exact Or.inr (List.mem_cons_of_mem e h1)
    · rcases List.mem_cons.mp h with h1 | h1
      · exact Or.inr (h1 ▸ List.mem_cons_self e rest)
      · rcases ih h1 with h2 | h2
        · exact Or.inl h2
        · exact Or.inr (List.mem_cons_of_mem e h2)

theorem dropLast_ends_slash {s : Str} (h : (ofS "/*").isSuffixOf s = true) :
    (ofS "/").isSuffixOf s.dropLast = true := by
  obtain ⟨t, ht⟩ := List.isSuffixOf_iff_suffix.mp h
  subst ht
  have h2 : (t ++ ofS "/*").dropLast = t ++ ofS "/" := by
    show (t ++ ['/', '*']).dropLast = t ++ ['/']
    rw [show t ++ ['/', '*'] = (t ++ ['/']) ++ ['*'] by simp]
    exact List.dropLast_concat ..
  rw [h2]
  exact List.isSuffixOf_iff_suffix.mpr ⟨t, rfl⟩

theorem pathsStep_inv {P : Str × Str → Prop}
    (hP : ∀ k v, (ofS "/*").isSuffixOf k = true → (ofS "/*").isSuffixOf v = true →
      P (k.dropLast, v.dropLast))
    {m : PathsMap} (hm : ∀ x ∈ m, P x) (e : Str × List Str) :
    ∀ x ∈ pathsStep m e, P x := by
  intro x hx
  unfold pathsStep at hx
  split at hx
  · exact hm x hx
  · rename_i d hd
    split at hx
    · rename_i hcond
      rcases objSet_mem hx with h1 | h1
      · subst h1
        exact hP _ _ (Bool.and_elim_left hcond) (Bool.and_elim_right hcond)
      · exact hm x h1
    · exact hm x hx

theorem getPathsMap_foldl_inv {P : Str × Str → Prop}
    (hP : ∀ k v, (ofS "/*").isSuffixOf k = true → (ofS "/*").isSuffixOf v = true →
      P (k.dropLast, v.dropLast)) :
    ∀ (ps : List (Str × List Str)) (m : PathsMap), (∀ x ∈ m, P x) →
      ∀ x ∈ ps.foldl pathsStep m, P x := by
  intro ps
  induction ps with
  | nil => intro m hm; simpa using hm
  | cons e rest ih =>
    intro m hm
    exact ih (pathsStep m e) (pathsStep_inv hP hm e)

/-- C9: every alias key and every target directory stored by the loader
ends in the separator, because only entries whose key and first target end
in the wildcard suffix are accepted and exactly the star is stripped; as a
consequence an alias prefix can only match a specifier at a path-segment
boundary (the matched prefix itself ends in the separator). -/
theorem c9_paths_map_invariant (ps : List (Str × List Str)) (k v : Str)
    (h : (k, v) ∈ getPathsMap ps) :
    (ofS "/").isSuffixOf k = true ∧ (ofS "/").isSuffixOf v = true := by
  have := getPathsMap_foldl_inv
    (P := fun x => (ofS "/").isSuffixOf x.1 = true ∧ (ofS "/").isSuffixOf x.2 = true)
    (fun a b ha hb => ⟨dropLast_ends_slash ha, dropLast_ends_slash hb⟩)
    ps [] (by simp)
  exact this (k, v) h

/-- Witness for C9 at the scenario alias table. -/
theorem c9_paths_map_invariant_witness :
    (ofS "/").isSuffixOf (ofS "~/") = true ∧
    (ofS "/").isSuffixOf (ofS "./src/") = true :=
  c9_paths_map_invariant scenarioPaths (ofS "~/") (ofS "./src/") (by decide)

/-!
Claim C10: only the first target directory of a `paths` entry is used.
-/

theorem pathsStep_take_one (m : PathsMap) (e : Str × List Str) :
    pathsStep m (e.1, e.2.take 1) = pathsStep m e := by
  rcases e with ⟨k, vs⟩
  cases vs <;> rfl

/-- C10: the loader registers only the head of each entry's target list;
dropping all later targets changes neither the alias table nor any
resolution made from it. -/
theorem c10_first_target_only (ps : List (Str × List Str)) :
    getPathsMap ps = getPathsMap (ps.map (fun e => (e.1, e.2.take 1))) ∧
    ∀ cwd ip filePath,
      resolveImportPath cwd ip filePath (getPathsMap ps) =
        resolveImportPath cwd ip filePath
          (getPathsMap (ps.map (fun e => (e.1, e.2.take 1)))) := by
  have hmain : getPathsMap ps = getPathsMap (ps.map (fun e => (e.1, e.2.take 1))) := by
    unfold getPathsMap
    rw [List.foldl_map]
    have : ∀ (l : List (Str × List Str)) (m : PathsMap),
        l.foldl pathsStep m = l.foldl (fun a e => pathsStep a (e.1, e.2.take 1)) m := by
      intro l
      induction l with
      | nil => intro m; rfl
      | cons e rest ih =>
        intro m
        simp only [List.foldl_cons]
        rw [pathsStep_take_one, ih]
    exact this ps []
  exact ⟨hmain, fun cwd ip filePath => by rw [hmain]⟩

/-!
Claim C1: the Extension Resolver.
-/

theorem extProbe_eq_find (fsys : Str → Bool) (p : ParsedPath) :
    ∀ l : List Str,
      extProbe fsys p l =
        (l.find? (fun e => fsys (jsFormat (changeExtension p e)))).map
          (fun e => (⟨e, []⟩ : ExtBase)) := by
  intro l
  induction l with
  | nil => rfl
  | cons e rest ih =>
    unfold extProbe
    rw [List.find?_cons]
    simp only [changeExtension]
    by_cases hf : fsys (jsFormat { p with ext := e, base := [] }) = true
    · simp [hf]
    · simp only [Bool.not_eq_true] at hf
      simp [hf, ih, changeExtension]

/-- C1: for a resolved path whose extension is outside the lookup set the
Extension Resolver returns the extension and basename unchanged; for one
inside the lookup set it returns the first of the candidate extensions
(probed in the fixed order of `ALLOWED_EXTENSIONS` by substituting the
extension and testing existence) whose file exists, and `none`
(`ExtensionNotFound`) when no candidate file exists, in which case the
reassembled specifier keeps the extension the specifier was written
with. -/
theorem c1_extension_resolver (fsys : Str → Bool) (cwd : Str) (pm : PathsMap)
    (skipAlias : Bool) (filePath ip : Str) (isRel : Bool) :
    (∀ p : ParsedPath, tsExtensionLookups.contains p.ext = false →
      getNewExtensionPathParts fsys p = some ⟨p.ext, p.base⟩) ∧
    (∀ p : ParsedPath, tsExtensionLookups.contains p.ext = true →
      getNewExtensionPathParts fsys p =
        (ALLOWED_EXTENSIONS.find?
          (fun e => fsys (jsFormat (changeExtension p e)))).map
          (fun e => (⟨e, []⟩ : ExtBase))) ∧
    (getNewExtensionPathParts fsys
        (jsParse (resolveImportPath cwd ip filePath pm)) = none →
      (transformParts fsys cwd pm skipAlias filePath ip isRel).1.ext =
        (jsParse ip).ext) := by
  refine ⟨?_, ?_, ?_⟩
  · intro p hp
    unfold getNewExtensionPathParts
    rw [hp]
    rfl
  · intro p hp
    unfold getNewExtensionPathParts
    rw [hp]
    exact extProbe_eq_find fsys p ALLOWED_EXTENSIONS
  · intro hnone
    unfold transformParts
    simp only [hnone]
    split <;> rfl

/-- Witness for C1 at a concrete non-lookup extension. -/
theorem c1_extension_resolver_witness :
    getNewExtensionPathParts (fun _ => false)
        (jsParse (ofS "/p/src/styles.css")) =
      some ⟨ofS ".css", ofS "styles.css"⟩ := by
  have h :=
    (c1_extension_resolver (fun _ => false) (ofS "/p") [] false
      (ofS "src/a.ts") (ofS "./x") true).1
      (jsParse (ofS "/p/src/styles.css")) (by decide)
  exact h.trans (by decide)

/-!
Claim C2: the Import Path Resolver against its specification wording.
`resolveImportPath` skips an alias whose stored target directory is the
empty string (the JavaScript falsiness guard), while the specification
says the first prefix-matching sorted key always wins; the two differ on a
table holding an empty target.
-/

/-- Counterexample to C2 as stated: on `c2Pm` the first (only) sorted
alias key is a prefix of the specifier, yet the code does not resolve the
remainder against its (empty) target; it falls through to resolution
relative to the containing file's directory. -/
theorem c2_counterexample :
    (sortAliases (c2Pm.map (fun e => e.1))).find?
        (fun a => a.isPrefixOf (ofS "~/x")) = some (ofS "~/") ∧
    resolveImportPath (ofS "/c") (ofS "~/x") (ofS "/p/f.ts") c2Pm ≠
      resolveImportPathSpec (ofS "/c") (ofS "~/x") (ofS "/p/f.ts") c2Pm := by
  constructor
  · decide
  · decide

theorem mem_insDesc {x y : Str} {l : List Str} :
    x ∈ insDesc y l ↔ x = y ∨ x ∈ l := by
  induction l with
  | nil => simp [insDesc]
  | cons z zs ih =>
    unfold insDesc
    split
    · simp [or_comm, or_assoc, or_left_comm]
    · simp only [List.mem_cons, ih]
      tauto

theorem mem_sortAliases {ks : List Str} {x : Str} :
    x ∈ sortAliases ks ↔ x ∈ ks := by
  have haux : ∀ (l acc : List Str),
      x ∈ l.foldl (fun a k => insDesc k a) acc ↔ x ∈ acc ∨ x ∈ l := by
    intro l
    induction l with
    | nil => intro acc; simp
    | cons k ks ih =>
      intro acc
      simp only [List.foldl_cons, ih, mem_insDesc, List.mem_cons]
      tauto
  unfold sortAliases
  rw [haux]
  simp

theorem objGet_of_mem_keys {pm : PathsMap} {a : Str}
    (h : a ∈ pm.map (fun e => e.1)) :
    ∃ v, objGet pm a = some v ∧ (a, v) ∈ pm := by
  induction pm with
  | nil => simp at h
  | cons e rest ih =>
    by_cases he : e.1 = a
    · refine ⟨e.2, ?_, ?_⟩
      · unfold objGet
        rw [List.find?_cons]
        simp [he]
      · rw [← he]
        exact List.mem_cons_self e rest
    · have h2 : a ∈ rest.map (fun e => e.1) := by
        rcases List.mem_cons.mp h with h3 | h3
        · exact absurd h3.symm he
        · exact h3
      obtain ⟨v, hv1, hv2⟩ := ih h2
      refine ⟨v, ?_, List.mem_cons_of_mem e hv2⟩
      unfold objGet at hv1 ⊢
      rw [List.find?_cons]
      have : (e.1 == a) = false := by
        simpa using he
      simp [this, hv1]

theorem aliasResolveLoop_eq_find (cwd ip : Str) (pm : PathsMap)
    (hv : ∀ e ∈ pm, e.2 ≠ ([] : Str)) :
    ∀ L : List Str, (∀ a ∈ L, a ∈ pm.map (fun e => e.1)) →
      aliasResolveLoop cwd ip pm L =
        (L.find? (fun a => a.isPrefixOf ip)).map
          (fun a => jsResolve cwd [(objGet pm a).getD [], ip.drop a.length]) := by
  intro L
  induction L with
  | nil => intro _; rfl
  | cons a rest ih =>
    intro hL
    unfold aliasResolveLoop
    rw [List.find?_cons]
    by_cases hp : a.isPrefixOf ip = true
    · obtain ⟨v, hv1, hv2⟩ := objGet_of_mem_keys (hL a (List.mem_cons_self a rest))
      have hvne : v ≠ [] := hv (a, v) hv2
      simp [hp, hv1, hvne]
    · simp only [Bool.not_eq_true] at hp
      simp only [hp, if_neg, Bool.false_eq_true, not_false_eq_true, if_false]
      exact ih (fun b hb => hL b (List.mem_cons_of_mem a hb))

/-- C2 amended: on any alias table whose stored target directories are all
nonempty (every table the loader builds is such, by C9), the resolver
returns, for the first length-sorted key that prefixes the specifier, the
remainder resolved against that key's target, and otherwise the specifier
resolved against the containing file's directory, with no error case. -/
theorem c2_resolver_amended (cwd ip filePath : Str) (pm : PathsMap)
    (hv : ∀ e ∈ pm, e.2 ≠ ([] : Str)) :
    resolveImportPath cwd ip filePath pm =
      resolveImportPathSpec cwd ip filePath pm := by
  unfold resolveImportPath resolveImportPathSpec
  rw [aliasResolveLoop_eq_find cwd ip pm hv _
    (fun a ha => mem_sortAliases.mp ha)]
  cases (sortAliases (pm.map (fun e => e.1))).find? (fun a => a.isPrefixOf ip) with
  | none => rfl
  | some a => rfl

/-- Witness for the amended C2 at the scenario alias table. -/
theorem c2_resolver_amended_witness :
    resolveImportPath (ofS "/p") (ofS "~/b") (ofS "src/a.ts")
        (getPathsMap scenarioPaths) =
      resolveImportPathSpec (ofS "/p") (ofS "~/b") (ofS "src/a.ts")
        (getPathsMap scenarioPaths) :=
  c2_resolver_amended (ofS "/p") (ofS "~/b") (ofS "src/a.ts")
    (getPathsMap scenarioPaths) (by decide)

/-!
Claim C7: the frame property of dry-run mode.
-/

theorem writeStep_false (cwd : Str) :
    ∀ (l : List (Str × Option (Str × ScanOut))) (d : DiskFS),
      l.foldl (writeStep false cwd) d = d := by
  intro l
  induction l with
  | nil => intro d; rfl
  | cons e rest ih =>
    intro d
    have h : writeStep false cwd d e = d := by
      unfold writeStep
      split
      · split <;> rfl
      · rfl
    rw [List.foldl_cons, h, ih]

/-- C7: a run with `write` off mutates no file on disk, while computing
exactly the change log, the diagnostics, and the outcome that the same run
with `write` on computes. -/
theorem c7_dry_run_frame (tsPaths : Option (List (Str × List Str)))
    (cwd : Str) (disk : DiskFS) (filePaths : List Str) (igs : List Str)
    (sa : Bool) :
    (fixImports tsPaths cwd disk filePaths ⟨false, igs, sa⟩).disk = disk ∧
    (fixImports tsPaths cwd disk filePaths ⟨false, igs, sa⟩).transformed =
      (fixImports tsPaths cwd disk filePaths ⟨true, igs, sa⟩).transformed ∧
    (fixImports tsPaths cwd disk filePaths ⟨false, igs, sa⟩).importErrors =
      (fixImports tsPaths cwd disk filePaths ⟨true, igs, sa⟩).importErrors ∧
    (fixImports tsPaths cwd disk filePaths ⟨false, igs, sa⟩).outcome =
      (fixImports tsPaths cwd disk filePaths ⟨true, igs, sa⟩).outcome := by
  cases tsPaths with
  | none => exact ⟨rfl, rfl, rfl, rfl⟩
  | some ps =>
    refine ⟨?_, rfl, rfl, rfl⟩
    exact writeStep_false cwd _ disk

/-!
Claim C8: the exit code aggregation and the export check.
-/

theorem fix_no_readFail {cwd : Str} {disk : DiskFS} {filePaths : List Str}
    (hread : ∀ fp ∈ filePaths, (fsRead cwd disk fp).isSome = true)
    (pm : PathsMap) (igs : List Str) (sa : Bool) :
    (filePaths.map (fixFileScan cwd disk pm igs sa)).any
      (fun e => e.2.isNone) = false := by
  induction filePaths with
  | nil => rfl
  | cons fp rest ih =>
    rw [List.map_cons, List.any_cons]
    have h1 : (∀ q ∈ rest, (fsRead cwd disk q).isSome = true) :=
      fun q hq => hread q (List.mem_cons_of_mem fp hq)
    rw [ih h1]
    unfold fixFileScan
    cases hr : fsRead cwd disk fp with
    | none => exact absurd (hread fp (List.mem_cons_self fp rest)) (by simp [hr])
    | some c => simp

theorem check_no_readFail (ed : Str → List Str) (cwd : Str) (disk : DiskFS) :
    ∀ filePaths : List Str,
      (∀ fp ∈ filePaths, (fsRead cwd disk fp).isSome = true) →
      (filePaths.map (fun fp =>
        if (jsParse fp).name = ofS "index" then (fp, some ([] : List Str))
        else
          match fsRead cwd disk fp with
          | none => (fp, none)
          | some content => (fp, some (ed content)))).any
        (fun e => e.2.isNone) = false := by
  intro filePaths
  induction filePaths with
  | nil => intro _; rfl
  | cons fp rest ih =>
    intro hread
    rw [List.map_cons, List.any_cons]
    rw [ih (fun q hq => hread q (List.mem_cons_of_mem fp hq))]
    by_cases hidx : (jsParse fp).name = ofS "index"
    · rw [if_pos hidx]
      rfl
    · rw [if_neg hidx]
      cases hr : fsRead cwd disk fp with
      | none =>
        exact absurd (hread fp (List.mem_cons_self fp rest)) (by simp [hr])
      | some c => simp

theorem fixImports_outcome_no_readFail (ps : List (Str × List Str))
    (cwd : Str) (disk : DiskFS) (filePaths : List Str) (opts : FixOptions)
    (hread : ∀ fp ∈ filePaths, (fsRead cwd disk fp).isSome = true) :
    (fixImports (some ps) cwd disk filePaths opts).outcome =
      (if (fixImports (some ps) cwd disk filePaths opts).importErrors.isEmpty
        then FixOutcome.ok else FixOutcome.errImports) := by
  unfold fixImports
  simp only
  rw [fix_no_readFail hread (getPathsMap ps) opts.importIgnoreStrings
    opts.skipAlias]
  rfl

theorem checkExports_ok_no_readFail (ed : Str → List Str) (cwd : Str)
    (disk : DiskFS) (filePaths : List Str)
    (hread : ∀ fp ∈ filePaths, (fsRead cwd disk fp).isSome = true) :
    (checkExports ed cwd disk filePaths).ok =
      (checkExports ed cwd disk filePaths).exportErrors.isEmpty := by
  unfold checkExports
  simp only
  rw [check_no_readFail ed cwd disk filePaths hread]
  rfl

/-- C8: with the tsconfig present and every candidate file readable, the
process exit code is 0 exactly when the rewrite pass and the export scan
both collect zero diagnostics; and any file whose parsed name is not
`index` that contains a re-export declaration forces exit code 1. -/
theorem c8_exit_code (ps : List (Str × List Str)) (exportDecls : Str → List Str)
    (cwd : Str) (disk : DiskFS) (filePaths : List Str) (opts : FixOptions)
    (hread : ∀ fp ∈ filePaths, (fsRead cwd disk fp).isSome = true) :
    (mainExitCode (some ps) exportDecls cwd disk filePaths opts = 0 ↔
      (fixImports (some ps) cwd disk filePaths opts).importErrors = [] ∧
      (checkExports exportDecls cwd disk filePaths).exportErrors = []) ∧
    (∀ fp ∈ filePaths, ∀ c : Str, (jsParse fp).name ≠ ofS "index" →
      fsRead cwd disk fp = some c → exportDecls c ≠ [] →
      mainExitCode (some ps) exportDecls cwd disk filePaths opts = 1) := by
  have hout := fixImports_outcome_no_readFail ps cwd disk filePaths opts hread
  have hok := checkExports_ok_no_readFail exportDecls cwd disk filePaths hread
  constructor
  · unfold mainExitCode
    simp only
    rw [hout, hok]
    by_cases h1 :
        (fixImports (some ps) cwd disk filePaths opts).importErrors = []
    · by_cases h2 :
          (checkExports exportDecls cwd disk filePaths).exportErrors = []
      · simp [h1, h2]
      · simp [h1, h2]
    · simp [h1]
  · intro fp hfp c hidx hr hed
    have hmem : (fp, some (exportDecls c)) ∈
        (filePaths.map (fun q =>
          if (jsParse q).name = ofS "index" then (q, some ([] : List Str))
          else
            match fsRead cwd disk q with
            | none => (q, none)
            | some content => (q, some (exportDecls content)))) := by
      rw [List.mem_map]
      refine ⟨fp, hfp, ?_⟩
      rw [if_neg hidx, hr]
    have hememb : (fp, exportDecls c) ∈
        (checkExports exportDecls cwd disk filePaths).exportErrors := by
      unfold checkExports
      simp only
      rw [List.mem_filterMap]
      refine ⟨(fp, some (exportDecls c)), hmem, ?_⟩
      simp only
      rw [if_neg hed]
    have hne : (checkExports exportDecls cwd disk filePaths).exportErrors ≠ [] :=
      List.ne_nil_of_mem hememb
    unfold mainExitCode
    simp only
    rw [if_neg]
    intro hcon
    rw [hok] at hcon
    rw [List.isEmpty_iff] at hcon
    exact hne hcon.2

/-!
Segment-level infrastructure for the remaining claims: the relationship
between `splitSegs`, `joinSegs`, normalization, resolution and parsing.
-/

theorem splitSegs_ne_nil (s : Str) : splitSegs s ≠ [] := by
  cases s with
  | nil => simp [splitSegs]
  | cons c rest =>
    unfold splitSegs
    split
    · simp
    · split
      · simp
      · simp

theorem splitSegs_noslash (s : Str) : ∀ x ∈ splitSegs s, '/' ∈ x → False := by
  induction s with
  | nil =>
    intro x hx
    simp [splitSegs] at hx
    simp [hx]
  | cons c rest ih =>
    intro x hx
    unfold splitSegs at hx
    split at hx
    · rcases List.mem_cons.mp hx with h1 | h1
      · simp [h1]
      · exact ih x h1
    · rename_i hc
      cases hs : splitSegs rest with
      | nil => exact absurd hs (splitSegs_ne_nil rest)
      | cons s0 ss =>
        rw [hs] at hx
        rcases List.mem_cons.mp hx with h1 | h1
        · subst h1
          intro hmem
          rcases List.mem_cons.mp hmem with h2 | h2
          · exact hc h2.symm
          · exact ih s0 (hs ▸ List.mem_cons_self s0 ss) h2
        · exact ih x (hs ▸ List.mem_cons_of_mem s0 h1)

theorem joinSegs_cons_ne (s : Str) (l : List Str) (hl : l ≠ []) :
    joinSegs (s :: l) = s ++ '/' :: joinSegs l := by
  cases l with
  | nil => exact absurd rfl hl
  | cons t rest => rfl

theorem splitSegs_slash (rest : Str) :
    splitSegs ('/' :: rest) = [] :: splitSegs rest := by
  conv_lhs => unfold splitSegs
  rw [if_pos rfl]

theorem splitSegs_cons_of_ne {c : Char} {rest : Str} {s0 : Str} {ss : List Str}
    (hc : ¬c = '/') (hs : splitSegs rest = s0 :: ss) :
    splitSegs (c :: rest) = (c :: s0) :: ss := by
  conv_lhs => unfold splitSegs
  rw [if_neg hc, hs]

theorem splitSegs_append_slash (a b : Str) :
    splitSegs (a ++ '/' :: b) = splitSegs a ++ splitSegs b := by
  induction a with
  | nil =>
    show splitSegs ('/' :: b) = [[]] ++ splitSegs b
    rw [splitSegs_slash]
    rfl
  | cons c rest ih =>
    by_cases hc : c = '/'
    · subst hc
      show splitSegs ('/' :: (rest ++ '/' :: b)) = splitSegs ('/' :: rest) ++ _
      rw [splitSegs_slash, splitSegs_slash, ih]
      rfl
    · cases hs : splitSegs rest with
      | nil => exact absurd hs (splitSegs_ne_nil rest)
      | cons s0 ss =>
        have hs2 : splitSegs (rest ++ '/' :: b) = s0 :: (ss ++ splitSegs b) := by
          rw [ih, hs]
          rfl
        show splitSegs (c :: (rest ++ '/' :: b)) = splitSegs (c :: rest) ++ _
        rw [splitSegs_cons_of_ne hc hs2, splitSegs_cons_of_ne hc hs]
        rfl

theorem joinSegs_splitSegs (s : Str) : joinSegs (splitSegs s) = s := by
  induction s with
  | nil => rfl
  | cons c rest ih =>
    by_cases hc : c = '/'
    · subst hc
      rw [splitSegs_slash]
      rw [joinSegs_cons_ne [] (splitSegs rest) (splitSegs_ne_nil rest)]
      rw [ih]
      rfl
    · cases hs : splitSegs rest with
      | nil => exact absurd hs (splitSegs_ne_nil rest)
      | cons s0 ss =>
        rw [splitSegs_cons_of_ne hc hs]
        rw [hs] at ih
        cases ss with
        | nil =>
          show c :: s0 = c :: rest
          have h2 : s0 = rest := ih
          rw [h2]
        | cons s1 ss2 =>
          rw [joinSegs_cons_ne (c :: s0) (s1 :: ss2) (by simp)]
          rw [joinSegs_cons_ne s0 (s1 :: ss2) (by simp)] at ih
          show c :: (s0 ++ '/' :: joinSegs (s1 :: ss2)) = c :: rest
          rw [ih]

theorem splitSegs_of_noslash {x : Str} (hx : '/' ∈ x → False) :
    splitSegs x = [x] := by
  induction x with
  | nil => rfl
  | cons c rest ih =>
    unfold splitSegs
    rw [if_neg (fun hc => hx (by simp [hc]))]
    rw [ih (fun hr => hx (List.mem_cons_of_mem c hr))]

theorem splitSegs_joinSegs {l : List Str} (h1 : l ≠ [])
    (h2 : ∀ x ∈ l, '/' ∈ x → False) : splitSegs (joinSegs l) = l := by
  induction l with
  | nil => exact absurd rfl h1
  | cons x rest ih =>
    cases rest with
    | nil =>
      show splitSegs x = [x]
      exact splitSegs_of_noslash (h2 x (List.mem_cons_self x []))
    | cons y rest2 =>
      rw [joinSegs_cons_ne x (y :: rest2) (by simp)]
      rw [splitSegs_append_slash]
      rw [splitSegs_of_noslash (h2 x (List.mem_cons_self x (y :: rest2)))]
      rw [ih (by simp) (fun z hz => h2 z (List.mem_cons_of_mem x hz))]
      rfl

theorem joinSegs_append {l1 l2 : List Str} (h1 : l1 ≠ []) (h2 : l2 ≠ []) :
    joinSegs (l1 ++ l2) = joinSegs l1 ++ '/' :: joinSegs l2 := by
  induction l1 with
  | nil => exact absurd rfl h1
  | cons x rest ih =>
    cases rest with
    | nil =>
      show joinSegs (x :: l2) = joinSegs [x] ++ '/' :: joinSegs l2
      rw [joinSegs_cons_ne x l2 h2]
      rfl
    | cons y rest2 =>
      rw [List.cons_append]
      rw [joinSegs_cons_ne x ((y :: rest2) ++ l2) (by simp)]
      rw [joinSegs_cons_ne x (y :: rest2) (by simp)]
      rw [ih (by simp)]
      simp

theorem normPush_normal (allow : Bool) (acc : List Str) {b : Str}
    (hb : SegNormal b) : normPush allow acc b = b :: acc := by
  unfold normPush
  rw [if_neg (by
    rintro (h | h)
    · exact hb.1 h
    · exact hb.2.1 h)]
  rw [if_neg hb.2.2.1]

theorem foldl_normPush_empties (allow : Bool) {E : List Str}
    (hE : ∀ x ∈ E, x = []) :
    ∀ acc, E.foldl (normPush allow) acc = acc := by
  induction E with
  | nil => intro acc; rfl
  | cons x rest ih =>
    intro acc
    rw [List.foldl_cons]
    have hx : x = [] := hE x (List.mem_cons_self x rest)
    have h1 : normPush allow acc x = acc := by
      unfold normPush
      rw [if_pos (Or.inl hx)]
    rw [h1]
    exact ih (fun y hy => hE y (List.mem_cons_of_mem x hy)) acc

theorem foldl_normPush_normals (allow : Bool) {B : List Str}
    (hB : ∀ x ∈ B, SegNormal x) :
    ∀ acc, B.foldl (normPush allow) acc = B.reverse ++ acc := by
  induction B with
  | nil => intro acc; rfl
  | cons x rest ih =>
    intro acc
    rw [List.foldl_cons]
    rw [normPush_normal allow acc (hB x (List.mem_cons_self x rest))]
    rw [ih (fun y hy => hB y (List.mem_cons_of_mem x hy)) (x :: acc)]
    simp

theorem normPush_false_preserves {acc : List Str} {seg : Str}
    (hacc : ∀ x ∈ acc, SegNormal x) (hseg : '/' ∈ seg → False) :
    ∀ x ∈ normPush false acc seg, SegNormal x := by
  intro x hx
  unfold normPush at hx
  split at hx
  · exact hacc x hx
  · split at hx
    · rename_i hdd
      cases hacc2 : acc with
      | nil =>
        rw [hacc2] at hx
        simp at hx
      | cons top acc2 =>
        rw [hacc2] at hx
        simp only at hx
        split at hx
        · refine hacc x ?_
          rw [hacc2]
          simp only [Bool.false_eq_true, if_false] at hx
          exact hx
        · exact hacc x (hacc2 ▸ List.mem_cons_of_mem top hx)
    · rename_i hne hdd
      rcases List.mem_cons.mp hx with h1 | h1
      · subst h1
        push_neg at hne
        exact ⟨hne.1, hne.2, hdd, hseg⟩
      · exact hacc x h1

theorem foldl_normPush_false_out {segs : List Str}
    (hsegs : ∀ x ∈ segs, '/' ∈ x → False) :
    ∀ acc, (∀ x ∈ acc, SegNormal x) →
      ∀ x ∈ segs.foldl (normPush false) acc, SegNormal x := by
  induction segs with
  | nil => intro acc hacc; exact hacc
  | cons s rest ih =>
    intro acc hacc
    rw [List.foldl_cons]
    exact ih (fun y hy => hsegs y (List.mem_cons_of_mem s hy))
      (normPush false acc s)
      (normPush_false_preserves hacc (hsegs s (List.mem_cons_self s rest)))

theorem pickChain_nil : pickChain [] = ([], false) := rfl

theorem pickChain_cons (a : Str) (l : List Str) :
    pickChain (a :: l) =
      (if (pickChain l).2 = true then pickChain l
       else if a = [] then pickChain l
       else (a :: (pickChain l).1, isAbsStr a)) := by
  conv_lhs => unfold pickChain

theorem pickChain_fst_ne_of_snd :
    ∀ l : List Str, (pickChain l).2 = true → (pickChain l).1 ≠ [] := by
  intro l
  induction l with
  | nil => intro h; cases h
  | cons a rest ih =>
    intro h
    rw [pickChain_cons] at h ⊢
    by_cases h2 : (pickChain rest).2 = true
    · rw [if_pos h2] at h ⊢
      exact ih h
    · rw [if_neg h2] at h ⊢
      by_cases ha : a = []
      · rw [if_pos ha] at h
        exact absurd h h2
      · rw [if_neg ha]
        simp

theorem pickChain_cons_abs {cwd : Str} (h : isAbsStr cwd = true)
    (args : List Str) : (pickChain (cwd :: args)).2 = true := by
  have hc : cwd ≠ [] := by
    intro h2
    rw [h2] at h
    cases h
  rw [pickChain_cons]
  by_cases h2 : (pickChain args).2 = true
  · rw [if_pos h2]
    exact h2
  · rw [if_neg h2, if_neg hc]
    exact h

theorem pickChain_append_rel {x : Str} (hx : x ≠ [])
    (hax : isAbsStr x = false) :
    ∀ l : List Str,
      pickChain (l ++ [x]) = ((pickChain l).1 ++ [x], (pickChain l).2) := by
  intro l
  induction l with
  | nil =>
    show pickChain [x] = _
    rw [pickChain_cons, pickChain_nil]
    simp [hx, hax]
  | cons a rest ih =>
    show pickChain (a :: (rest ++ [x])) = _
    rw [pickChain_cons, ih, pickChain_cons a rest]
    by_cases h2 : (pickChain rest).2 = true
    · simp [h2]
    · by_cases ha : a = []
      · simp [h2, ha]
      · simp [h2, ha]

theorem pickChain_append_abs {x : Str} (hax : isAbsStr x = true) :
    ∀ l : List Str, pickChain (l ++ [x]) = ([x], true) := by
  have hx : x ≠ [] := by
    intro h
    rw [h] at hax
    cases hax
  intro l
  induction l with
  | nil =>
    show pickChain [x] = _
    rw [pickChain_cons, pickChain_nil]
    simp [hx, hax]
  | cons a rest ih =>
    show pickChain (a :: (rest ++ [x])) = _
    rw [pickChain_cons, ih]
    simp

theorem jsResolve_abs {cwd : Str} (h : isAbsStr cwd = true) (args : List Str) :
    jsResolve cwd args = '/' :: joinSegs (resSegs cwd args) := by
  unfold jsResolve resSegs
  simp only [pickChain_cons_abs h args]
  rfl

theorem foldl_last_normal {xs E : List Str} {b : Str} (hb : SegNormal b)
    (hE : ∀ e ∈ E, e = []) (acc : List Str) :
    (xs ++ b :: E).foldl (normPush false) acc =
      b :: xs.foldl (normPush false) acc := by
  rw [List.foldl_append, List.foldl_cons, normPush_normal false _ hb,
    foldl_normPush_empties false hE]

theorem resSegs_append_rel {cwd x : Str} (hc : isAbsStr cwd = true)
    (hx : x ≠ []) (hax : isAbsStr x = false) (args : List Str) :
    resSegs cwd (args ++ [x]) =
      ((splitSegs x).foldl (normPush false)
        ((splitSegs (joinSegs (pickChain (cwd :: args)).1)).foldl
          (normPush false) [])).reverse := by
  unfold resSegs normSegs
  rw [show cwd :: (args ++ [x]) = (cwd :: args) ++ [x] by simp]
  rw [pickChain_append_rel hx hax]
  simp only
  have hne : (pickChain (cwd :: args)).1 ≠ [] :=
    pickChain_fst_ne_of_snd _ (pickChain_cons_abs hc args)
  rw [joinSegs_append hne (by simp)]
  rw [show joinSegs [x] = x from rfl]
  rw [splitSegs_append_slash, List.foldl_append]

theorem resSegs_append_abs {cwd x : Str} (hax : isAbsStr x = true)
    (args : List Str) :
    resSegs cwd (args ++ [x]) =
      ((splitSegs x).foldl (normPush false) []).reverse := by
  unfold resSegs normSegs
  rw [show cwd :: (args ++ [x]) = (cwd :: args) ++ [x] by simp]
  rw [pickChain_append_abs hax]
  rw [show joinSegs [x] = x from rfl]

theorem splitSegs_mem_of_eq {x : Str} {xs E : List Str} {b : Str}
    (hsplit : splitSegs x = xs ++ b :: E) :
    ∀ y ∈ xs, '/' ∈ y → False := by
  intro y hy
  exact splitSegs_noslash x y (by rw [hsplit]; exact List.mem_append_left _ hy)

theorem ne_nil_of_splitSegs_eq {x : Str} {xs E : List Str} {b : Str}
    (hsplit : splitSegs x = xs ++ b :: E) (hb : b ≠ []) : x ≠ [] := by
  intro h
  rw [h] at hsplit
  have hthis : ([[]] : List Str) = xs ++ b :: E := hsplit
  cases xs with
  | nil =>
    have h1 : ([] : Str) = b := (List.cons.injEq .. ▸ hthis).1
    exact hb h1.symm
  | cons u us =>
    have h2 : ([] : List Str) = us ++ b :: E := (List.cons.injEq .. ▸ hthis).2
    exact absurd h2.symm (by simp)

theorem resSegs_last {cwd : Str} (hc : isAbsStr cwd = true) (args : List Str)
    {x : Str} {xs E : List Str} {b : Str}
    (hsplit : splitSegs x = xs ++ b :: E) (hb : SegNormal b)
    (hE : ∀ e ∈ E, e = []) :
    ∃ A, resSegs cwd (args ++ [x]) = A ++ [b] ∧ ∀ y ∈ A, SegNormal y := by
  by_cases hax : isAbsStr x = true
  · rw [resSegs_append_abs hax, hsplit, foldl_last_normal hb hE]
    refine ⟨(xs.foldl (normPush false) []).reverse, by simp, ?_⟩
    intro y hy
    rw [List.mem_reverse] at hy
    exact foldl_normPush_false_out (splitSegs_mem_of_eq hsplit) []
      (by simp) y hy
  · have hxne : x ≠ [] := ne_nil_of_splitSegs_eq hsplit hb.1
    rw [resSegs_append_rel hc hxne (by simpa using hax) args, hsplit,
      foldl_last_normal hb hE]
    refine ⟨(xs.foldl (normPush false)
      ((splitSegs (joinSegs (pickChain (cwd :: args)).1)).foldl
        (normPush false) [])).reverse, by simp, ?_⟩
    intro y hy
    rw [List.mem_reverse] at hy
    refine foldl_normPush_false_out (splitSegs_mem_of_eq hsplit) _ ?_ y hy
    exact foldl_normPush_false_out
      (splitSegs_noslash (joinSegs (pickChain (cwd :: args)).1)) []
      (by simp)

theorem dropWhile_reverse_last {xs : List Str} {b : Str} (hb : b ≠ []) :
    (xs ++ [b]).reverse.dropWhile (fun x => x = []) = b :: xs.reverse := by
  rw [List.reverse_append]
  show List.dropWhile _ (b :: xs.reverse) = _
  rw [List.dropWhile_cons]
  simp [hb]

theorem jsParse_rel_of_segs {ip : Str} {xs : List Str} {b : Str}
    (hip : isAbsStr ip = false) (hsplit : splitSegs ip = xs ++ [b])
    (hb : SegNormal b) :
    jsParse ip =
      ⟨[], (if xs = [] then [] else joinSegs xs), b,
        (extSplit b).2, (extSplit b).1⟩ := by
  have hipne : ip ≠ [] := ne_nil_of_splitSegs_eq (E := []) (by simpa using hsplit) hb.1
  unfold jsParse
  rw [if_neg hipne]
  simp only [hip, Bool.false_eq_true, if_false]
  rw [hsplit, dropWhile_reverse_last hb.1]
  simp only
  cases hxs : xs with
  | nil => simp
  | cons u us => simp

theorem joinSegs_ne_nil_head {u : Str} {us : List Str} (hu : u ≠ []) :
    joinSegs (u :: us) ≠ [] := by
  cases us with
  | nil => exact hu
  | cons v vs =>
    rw [joinSegs_cons_ne u (v :: vs) (by simp)]
    simp

theorem jsParse_abs_segs {A : List Str} {b : Str}
    (hA : ∀ y ∈ A, SegNormal y) (hb : SegNormal b) :
    jsParse ('/' :: joinSegs (A ++ [b])) =
      ⟨['/'], (if A = [] then ['/'] else '/' :: joinSegs A), b,
        (extSplit b).2, (extSplit b).1⟩ := by
  unfold jsParse
  rw [if_neg (by simp)]
  have hsegs : splitSegs (joinSegs (A ++ [b])) = A ++ [b] := by
    refine splitSegs_joinSegs (by simp) ?_
    intro y hy
    rcases List.mem_append.mp hy with h1 | h1
    · exact (hA y h1).2.2.2
    · rw [List.mem_singleton.mp h1]
      exact hb.2.2.2
  have hab : isAbsStr ('/' :: joinSegs (A ++ [b])) = true := by
    unfold isAbsStr
    simp
  simp only [hab, eq_self_iff_true, if_true, List.drop_one, List.tail_cons]
  rw [hsegs, dropWhile_reverse_last hb.1]
  simp only
  cases hxs : A with
  | nil => simp
  | cons u us => simp

theorem jsFormat_abs_root {B ext name : Str} :
    jsFormat ⟨['/'], ['/'], B, ext, name⟩ =
      '/' :: (if B = [] then name ++ formatExt ext else B) := by
  unfold jsFormat
  cases hB : B <;> simp

theorem jsFormat_abs_dirr {j : Str} (hj : j ≠ []) {B ext name : Str} :
    jsFormat ⟨['/'], '/' :: j, B, ext, name⟩ =
      '/' :: (j ++ '/' :: (if B = [] then name ++ formatExt ext else B)) := by
  unfold jsFormat
  simp only
  rw [if_neg (by simp : ¬('/' :: j : Str) = [])]
  rw [if_neg (by simp : ¬('/' :: j : Str) = [])]
  rw [if_neg (by
    intro h
    exact hj (List.cons.injEq .. ▸ h).2)]
  cases hB : B with
  | nil => simp
  | cons c cs => simp

theorem jsFormat_rel_nil {B ext name : Str} :
    jsFormat ⟨[], [], B, ext, name⟩ =
      (if B = [] then name ++ formatExt ext else B) := by
  unfold jsFormat
  cases hB : B <;> simp

theorem jsFormat_rel_mk {D : Str} (hD : D ≠ []) {B ext name : Str} :
    jsFormat ⟨[], D, B, ext, name⟩ =
      D ++ '/' :: (if B = [] then name ++ formatExt ext else B) := by
  unfold jsFormat
  simp only
  rw [if_neg hD, if_neg hD, if_neg hD]

theorem splitSegs_head_ne {ip : Str} (hip : isAbsStr ip = false)
    (hne : ip ≠ []) : ∀ u us, splitSegs ip = u :: us → u ≠ [] := by
  intro u us h
  cases ip with
  | nil => exact absurd rfl hne
  | cons c rest =>
    have hc : ¬c = '/' := by
      intro h2
      rw [h2] at hip
      unfold isAbsStr at hip
      simp at hip
    cases hs : splitSegs rest with
    | nil => exact absurd hs (splitSegs_ne_nil rest)
    | cons s0 ss =>
      rw [splitSegs_cons_of_ne hc hs] at h
      have h3 : u = c :: s0 := (List.cons.injEq .. ▸ h).1.symm
      rw [h3]
      simp

theorem format_parse_rel {ip : Str} {xs : List Str} {b : Str}
    (hip : isAbsStr ip = false) (hsplit : splitSegs ip = xs ++ [b])
    (hb : SegNormal b) : jsFormat (jsParse ip) = ip := by
  have hipne : ip ≠ [] :=
    ne_nil_of_splitSegs_eq (E := []) (by simpa using hsplit) hb.1
  have hipj : joinSegs (xs ++ [b]) = ip := by
    rw [← hsplit]
    exact joinSegs_splitSegs ip
  rw [jsParse_rel_of_segs hip hsplit hb]
  cases hxs : xs with
  | nil =>
    show jsFormat ⟨[], [], b, (extSplit b).2, (extSplit b).1⟩ = ip
    rw [jsFormat_rel_nil, if_neg hb.1]
    rw [← hipj, hxs]
    rfl
  | cons u us =>
    have hu : u ≠ [] :=
      splitSegs_head_ne hip hipne u (us ++ [b]) (by rw [hsplit, hxs]; simp)
    have hj : joinSegs (u :: us) ≠ [] := joinSegs_ne_nil_head hu
    show jsFormat ⟨[], joinSegs (u :: us), b, (extSplit b).2, (extSplit b).1⟩ =
      ip
    rw [jsFormat_rel_mk hj, if_neg hb.1]
    rw [← hipj, hxs]
    rw [joinSegs_append (by simp) (by simp)]
    rfl

theorem lastDotSplit_eq :
    ∀ {b pre post : Str}, lastDotSplit b = some (pre, post) →
      b = pre ++ '.' :: post := by
  intro b
  induction b with
  | nil => intro pre post h; cases h
  | cons c rest ih =>
    intro pre post h
    cases hr : lastDotSplit rest with
    | some p =>
      rcases p with ⟨p1, p2⟩
      have heq : lastDotSplit (c :: rest) = some (c :: p1, p2) := by
        unfold lastDotSplit
        rw [hr]
      rw [heq] at h
      cases h
      rw [List.cons_append]
      exact congrArg (List.cons c) (ih hr)
    | none =>
      have heq : lastDotSplit (c :: rest) =
          (if c = '.' then some ([], rest) else none) := by
        unfold lastDotSplit
        rw [hr]
      rw [heq] at h
      by_cases hc : c = '.'
      · rw [if_pos hc] at h
        cases h
        rw [hc]
        rfl
      · rw [if_neg hc] at h
        cases h

theorem extSplit_recomb (b : Str) : (extSplit b).1 ++ (extSplit b).2 = b := by
  unfold extSplit
  split
  · simp
  · cases h : lastDotSplit b with
    | none => simp
    | some p =>
      simp only
      split
      · simp
      · have := lastDotSplit_eq h
        simp only
        rw [← this]

theorem extSplit_name_ne {b : Str} (hb : b ≠ []) : (extSplit b).1 ≠ [] := by
  unfold extSplit
  split
  · simpa using hb
  · cases h : lastDotSplit b with
    | none => simpa using hb
    | some p =>
      simp only
      split
      · simpa using hb
      · rename_i hpre
        simpa using hpre

theorem formatExt_extSplit (b : Str) :
    formatExt (extSplit b).2 = (extSplit b).2 := by
  unfold extSplit
  split
  · rfl
  · cases h : lastDotSplit b with
    | none => rfl
    | some p =>
      simp only
      split
      · rfl
      · unfold formatExt
        simp

theorem aliasResolveLoop_none {cwd ip : Str} {pm : PathsMap} :
    ∀ {L : List Str}, (∀ a ∈ L, a.isPrefixOf ip = false) →
      aliasResolveLoop cwd ip pm L = none := by
  intro L
  induction L with
  | nil => intro _; rfl
  | cons a rest ih =>
    intro h
    unfold aliasResolveLoop
    rw [h a (List.mem_cons_self a rest)]
    simp only [Bool.false_eq_true, if_false]
    exact ih (fun q hq => h q (List.mem_cons_of_mem a hq))

theorem resolveImportPath_rel {cwd ip fp : Str} {pm : PathsMap}
    (h : ∀ e ∈ pm, e.1.isPrefixOf ip = false) :
    resolveImportPath cwd ip fp pm = jsResolve cwd [jsDirname fp, ip] := by
  unfold resolveImportPath
  rw [aliasResolveLoop_none (fun a ha => by
    obtain ⟨e, he, hea⟩ := List.mem_map.mp (mem_sortAliases.mp ha)
    exact hea ▸ h e he)]

theorem getNewExtensionPathParts_pass {fsys : Str → Bool} {p : ParsedPath}
    (h : tsExtensionLookups.contains p.ext = false) :
    getNewExtensionPathParts fsys p = some ⟨p.ext, p.base⟩ := by
  unfold getNewExtensionPathParts
  rw [h]
  rfl

/-- The specifier `./styles.css` under a covering alias is rewritten to
`~/styles.css` by the pass, and a trailing-separator specifier with a
non-lookup extension is shortened even with alias rewriting disabled: both
refute C5 as stated. -/
theorem c5_counterexample :
    tsExtensionLookups.contains (jsParse (ofS "./styles.css")).ext = false ∧
    processImport (fun _ => false) (ofS "/p") (getPathsMap scenarioPaths) []
        false (ofS "src/a.ts") (ofS "./styles.css") =
      ⟨some (ofS "~/styles.css"), []⟩ ∧
    (fixImports (some scenarioPaths) (ofS "/p")
        [(ofS "/p/src/a.ts", ofS "import s from \"./styles.css\"")]
        [ofS "src/a.ts"] ⟨true, [], false⟩).transformed =
      [(ofS "src/a.ts", [(ofS "./styles.css", ofS "~/styles.css")])] ∧
    processImport (fun _ => false) (ofS "/p") [] [] true (ofS "src/a.ts")
        (ofS "./styles.css/") =
      ⟨some (ofS "./styles.css"), []⟩ := by
  refine ⟨by decide, by decide, by decide, by decide⟩

/-- C5 amended: a specifier whose basename's extension is outside the
lookup set is passed through the extension step with extension and
basename untouched, and its text is byte-identical in the output whenever
the alias rewrite does not apply to it — in particular when `skipAlias` is
set or the specifier is not relative — provided no alias key prefixes the
specifier, the working directory is absolute, and the specifier is in
normal form (single segments, no trailing separator). -/
theorem c5_nonlookup_amended (fsys : Str → Bool) (cwd : Str) (pm : PathsMap)
    (igs : List Str) (sa : Bool) (fp ip : Str) (xs : List Str) (b : Str)
    (hcwd : isAbsStr cwd = true)
    (hip : isAbsStr ip = false)
    (hsplit : splitSegs ip = xs ++ [b])
    (hb : SegNormal b)
    (hext : tsExtensionLookups.contains (extSplit b).2 = false)
    (hnoalias : ∀ e ∈ pm, e.1.isPrefixOf ip = false)
    (hskip : sa = true ∨
      ((ofS "./").isPrefixOf ip || (ofS "../").isPrefixOf ip) = false) :
    processImport fsys cwd pm igs sa fp ip = ⟨none, []⟩ := by
  unfold processImport
  simp only
  by_cases hproc : (((ofS "./").isPrefixOf ip || (ofS "../").isPrefixOf ip) ||
      pm.any (fun e => e.1.isPrefixOf ip)) = true
  · rw [hproc]
    simp only [Bool.not_true, Bool.false_eq_true, if_false]
    have hisAl : pm.any (fun e => e.1.isPrefixOf ip) = false := by
      rw [List.any_eq_false]
      intro e he
      simp [hnoalias e he]
    have hisRel :
        ((ofS "./").isPrefixOf ip || (ofS "../").isPrefixOf ip) = true := by
      rcases Bool.or_eq_true .. ▸ hproc with h1 | h1
      · exact h1
      · rw [hisAl] at h1
        cases h1
    have hsa : sa = true := by
      rcases hskip with h1 | h1
      · exact h1
      · rw [h1] at hisRel
        cases hisRel
    subst hsa
    by_cases hig : (igs.any (fun g => strIncludes g ip)) = true
    · rw [hig]
      simp
    · rw [show (igs.any (fun g => strIncludes g ip)) = false from
        by simpa using hig]
      simp only [Bool.false_eq_true, if_false]
      obtain ⟨A, hA, hAn⟩ :=
        resSegs_last hcwd [jsDirname fp] (x := ip) hsplit hb (by simp)
      have hA2 : resSegs cwd [jsDirname fp, ip] = A ++ [b] := by
        have h3 : [jsDirname fp] ++ [ip] = [jsDirname fp, ip] := by simp
        rw [← h3]
        exact hA
      have hres : resolveImportPath cwd ip fp pm =
          '/' :: joinSegs (A ++ [b]) := by
        rw [resolveImportPath_rel hnoalias, jsResolve_abs hcwd, hA2]
      have hnp : jsFormat (jsParse ip) = ip := format_parse_rel hip hsplit hb
      have htp : transformParts fsys cwd pm true fp ip
          ((ofS "./").isPrefixOf ip || (ofS "../").isPrefixOf ip) =
          (jsParse ip, []) := by
        unfold transformParts
        simp only [Bool.not_true, Bool.and_false, Bool.false_eq_true,
          if_false]
        rw [hres, jsParse_abs_segs hAn hb]
        rw [getNewExtensionPathParts_pass (p :=
          ⟨['/'], (if A = [] then ['/'] else '/' :: joinSegs A), b,
            (extSplit b).2, (extSplit b).1⟩) hext]
        rw [jsParse_rel_of_segs hip hsplit hb]
        rfl
      rw [htp]
      simp [hnp]
  · have hfalse : (((ofS "./").isPrefixOf ip || (ofS "../").isPrefixOf ip) ||
        pm.any (fun e => e.1.isPrefixOf ip)) = false := by
      revert hproc
      cases ((ofS "./").isPrefixOf ip || (ofS "../").isPrefixOf ip) ||
          pm.any (fun e => e.1.isPrefixOf ip) <;> simp
    rw [hfalse]
    rfl

theorem resSegs_normal (cwd : Str) (args : List Str) :
    ∀ y ∈ resSegs cwd args, SegNormal y := by
  intro y hy
  unfold resSegs normSegs at hy
  rw [List.mem_reverse] at hy
  exact foldl_normPush_false_out
    (splitSegs_noslash (joinSegs (pickChain (cwd :: args)).1)) [] (by simp)
    y hy

theorem jsResolve_abs_fixed (cwd : Str) {S : List Str}
    (hS : ∀ y ∈ S, SegNormal y) :
    jsResolve cwd ['/' :: joinSegs S] = '/' :: joinSegs S := by
  unfold jsResolve
  rw [show (cwd :: ['/' :: joinSegs S]) = [cwd] ++ ['/' :: joinSegs S]
    from rfl]
  rw [pickChain_append_abs (by unfold isAbsStr; simp)]
  simp only [Bool.not_true, eq_self_iff_true, if_true]
  rw [show joinSegs ['/' :: joinSegs S] = '/' :: joinSegs S from rfl]
  rw [splitSegs_slash]
  cases hS2 : S with
  | nil => rfl
  | cons u us =>
    rw [splitSegs_joinSegs (by simp) (fun y hy => (hS y (hS2 ▸ hy)).2.2.2)]
    unfold normSegs
    rw [List.foldl_cons]
    rw [show normPush false [] [] = [] from rfl]
    rw [foldl_normPush_normals false (fun y hy => hS y (hS2 ▸ hy))]
    simp

theorem absSegs_abs {S : List Str} (hS : ∀ y ∈ S, SegNormal y) :
    absSegs ('/' :: joinSegs S) = S := by
  unfold absSegs
  rw [splitSegs_slash]
  cases hS2 : S with
  | nil => rfl
  | cons u us =>
    rw [splitSegs_joinSegs (by simp) (fun y hy => (hS y (hS2 ▸ hy)).2.2.2)]
    rw [List.filter_cons]
    rw [if_neg (by simp)]
    rw [List.filter_eq_self.mpr]
    intro y hy
    simpa using (hS y (hS2 ▸ hy)).1

theorem bool_eq_false_of_ne_true {b : Bool} (h : ¬b = true) : b = false := by
  cases b
  · rfl
  · exact absurd rfl h

theorem stripCommon_fst_nil :
    ∀ {F S tr : List Str}, stripCommon F S = ([], tr) → S = F ++ tr := by
  intro F
  induction F with
  | nil =>
    intro S tr h
    simp only [stripCommon] at h
    have h3 : S = tr := congrArg Prod.snd h
    rw [h3]
    rfl
  | cons f fs ih =>
    intro S tr h
    cases S with
    | nil =>
      simp only [stripCommon] at h
      have h3 := congrArg Prod.fst h
      simp at h3
    | cons s ss =>
      simp only [stripCommon] at h
      by_cases hfs : f = s
      · rw [if_pos hfs] at h
        have h3 := ih h
        rw [h3, hfs]
        rfl
      · rw [if_neg hfs] at h
        have h3 := congrArg Prod.fst h
        simp at h3

theorem isPrefixOf_dots_join {l : List Str} :
    (ofS "..").isPrefixOf (joinSegs (ofS ".." :: l)) = true := by
  cases l with
  | nil => decide
  | cons y ys =>
    rw [joinSegs_cons_ne (ofS "..") (y :: ys) (by simp)]
    exact List.isPrefixOf_iff_prefix.mpr ⟨'/' :: joinSegs (y :: ys), rfl⟩

theorem aliasCoverLoop_first {cwd T : Str} {pmPre pmPost : PathsMap}
    {a d : Str}
    (hpre : ∀ e ∈ pmPre, (ofS "..").isPrefixOf (jsRelative cwd e.2 T) = true)
    (hacc : (ofS "..").isPrefixOf (jsRelative cwd d T) = false) :
    aliasCoverLoop cwd T (pmPre ++ (a, d) :: pmPost) =
      some (jsParse (a ++ jsRelative cwd d T)).dir := by
  induction pmPre with
  | nil =>
    have heq : aliasCoverLoop cwd T ([] ++ (a, d) :: pmPost) =
        (if (ofS "..").isPrefixOf (jsRelative cwd d T) = true
          then aliasCoverLoop cwd T pmPost
          else some (jsParse (a ++ jsRelative cwd d T)).dir) := rfl
    rw [heq, if_neg (by simp [hacc])]
  | cons e rest ih =>
    have heq : aliasCoverLoop cwd T ((e :: rest) ++ (a, d) :: pmPost) =
        (if (ofS "..").isPrefixOf (jsRelative cwd e.2 T) = true
          then aliasCoverLoop cwd T (rest ++ (a, d) :: pmPost)
          else some (jsParse (e.1 ++ jsRelative cwd e.2 T)).dir) := rfl
    rw [heq, if_pos (hpre e (List.mem_cons_self e rest))]
    exact ih (fun q hq => hpre q (List.mem_cons_of_mem e hq))

theorem objGet_eq_of_mem_nodup {pm : PathsMap} {a d : Str}
    (hmem : (a, d) ∈ pm) (hnd : (pm.map (fun e => e.1)).Nodup) :
    objGet pm a = some d := by
  induction pm with
  | nil => simp at hmem
  | cons e rest ih =>
    rcases List.mem_cons.mp hmem with h1 | h1
    · unfold objGet
      rw [List.find?_cons]
      rw [show (e.1 == a) = true from by rw [← h1]; simp]
      rw [← h1]
      rfl
    · have hna : ¬e.1 = a := by
        intro h2
        have hmem2 : a ∈ rest.map (fun q => q.1) :=
          List.mem_map.mpr ⟨(a, d), h1, rfl⟩
        rw [List.map_cons, List.nodup_cons] at hnd
        exact hnd.1 (h2 ▸ hmem2)
      unfold objGet
      rw [List.find?_cons]
      rw [show (e.1 == a) = false from by simpa using hna]
      have := ih h1 (by
        rw [List.map_cons, List.nodup_cons] at hnd
        exact hnd.2)
      unfold objGet at this
      exact this

theorem aliasResolveLoop_single {cwd out : Str} {pm : PathsMap} {a d : Str}
    (ha : objGet pm a = some d) (hd : d ≠ [])
    (hap : a.isPrefixOf out = true) :
    ∀ {L : List Str}, a ∈ L →
      (∀ k ∈ L, k.isPrefixOf out = true → k = a) →
      aliasResolveLoop cwd out pm L =
        some (jsResolve cwd [d, out.drop a.length]) := by
  intro L
  induction L with
  | nil => intro h _; simp at h
  | cons k rest ih =>
    intro haL honly
    by_cases hk : k.isPrefixOf out = true
    · have hka : k = a := honly k (List.mem_cons_self k rest) hk
      subst hka
      unfold aliasResolveLoop
      rw [hap]
      simp only [if_pos rfl, ha]
      rw [show (some d).getD ([] : Str) = d from rfl]
      rw [if_neg hd]
      simp
    · unfold aliasResolveLoop
      rw [bool_eq_false_of_ne_true hk]
      simp only [Bool.false_eq_true, if_false]
      have haL2 : a ∈ rest := by
        rcases List.mem_cons.mp haL with h1 | h1
        · rw [h1] at hap
          exact absurd hap hk
        · exact h1
      exact ih haL2 (fun q hq => honly q (List.mem_cons_of_mem k hq))

theorem jsFormat_abs_full {A : List Str} {B ext name : Str}
    (hAn : ∀ y ∈ A, SegNormal y) :
    jsFormat ⟨['/'], (if A = [] then ['/'] else '/' :: joinSegs A), B, ext,
        name⟩ =
      '/' :: joinSegs (A ++ [if B = [] then name ++ formatExt ext else B]) := by
  cases hA : A with
  | nil =>
    show jsFormat ⟨['/'], ['/'], B, ext, name⟩ = _
    rw [jsFormat_abs_root]
    rfl
  | cons u us =>
    have hu : u ≠ [] := (hAn u (hA ▸ List.mem_cons_self u us)).1
    show jsFormat ⟨['/'], '/' :: joinSegs (u :: us), B, ext, name⟩ = _
    rw [jsFormat_abs_dirr (joinSegs_ne_nil_head hu)]
    rw [joinSegs_append (by simp) (by simp :
      ([if B = [] then name ++ formatExt ext else B] : List Str) ≠ [])]
    rfl

theorem jsFormat_abs_base {A : List Str} {b ext name : Str}
    (hAn : ∀ y ∈ A, SegNormal y) (hb1 : b ≠ []) :
    jsFormat ⟨['/'], (if A = [] then ['/'] else '/' :: joinSegs A), b, ext,
        name⟩ = '/' :: joinSegs (A ++ [b]) := by
  have h := @jsFormat_abs_full A b ext name hAn
  rw [if_neg hb1] at h
  exact h

theorem joinSegs_cons_decomp (u : Str) (us : List Str) :
    ∃ Y, joinSegs (u :: us) = u ++ Y := by
  cases us with
  | nil =>
    refine ⟨[], ?_⟩
    rw [List.append_nil]
    rfl
  | cons v vs => exact ⟨'/' :: joinSegs (v :: vs), rfl⟩

theorem isAbsStr_append_left {u : Str} (hu : u ≠ [])
    (hnos : '/' ∈ u → False) (v : Str) : isAbsStr (u ++ v) = false := by
  cases u with
  | nil => exact absurd rfl hu
  | cons c cu =>
    show isAbsStr (c :: (cu ++ v)) = false
    unfold isAbsStr
    simp only [decide_eq_false_iff_not]
    intro hc
    exact hnos (by simp [hc])

theorem isAbsStr_joinSegs_app {u : Str} {us : List Str} (hu : SegNormal u)
    (X : Str) : isAbsStr (joinSegs (u :: us) ++ X) = false := by
  obtain ⟨Y, hY⟩ := joinSegs_cons_decomp u us
  rw [hY, List.append_assoc]
  exact isAbsStr_append_left hu.1 hu.2.2.2 (Y ++ X)

theorem isAbsStr_joinSegs {u : Str} {us : List Str} (hu : SegNormal u) :
    isAbsStr (joinSegs (u :: us)) = false := by
  have h := @isAbsStr_joinSegs_app u us hu []
  rwa [List.append_nil] at h

theorem seg_normal_append_ext {N e : Str} (hN : N ≠ [])
    (hNs : '/' ∈ N → False) (he : e ∈ ALLOWED_EXTENSIONS) :
    SegNormal (N ++ e) := by
  have helen : e.length ≥ 3 ∧ (('/' : Char) ∈ e → False) := by
    unfold ALLOWED_EXTENSIONS ofS at he
    rcases List.mem_cons.mp he with h1 | h1
    · subst h1; exact ⟨by decide, by decide⟩
    · rcases List.mem_cons.mp h1 with h2 | h2
      · subst h2; exact ⟨by decide, by decide⟩
      · rcases List.mem_cons.mp h2 with h3 | h3
        · subst h3; exact ⟨by decide, by decide⟩
        · simp at h3
  obtain ⟨he3, hes⟩ := helen
  have hN1 : N.length ≥ 1 := List.length_pos.mpr hN
  refine ⟨?_, ?_, ?_, ?_⟩
  · intro h
    have hlf : N.length + e.length = 0 := by
      have h2 := congrArg List.length h
      rwa [List.length_append] at h2
    omega
  · intro h
    have hlf : N.length + e.length = 1 := by
      have h2 := congrArg List.length h
      rwa [List.length_append] at h2
    omega
  · intro h
    have hlf : N.length + e.length = 2 := by
      have h2 := congrArg List.length h
      rwa [List.length_append] at h2
    omega
  · intro h
    rcases List.mem_append.mp h with h1 | h1
    · exact hNs h1
    · exact hes h1

theorem splitSegs_head_dots {ip : Str}
    (hrel : ((ofS "./").isPrefixOf ip || (ofS "../").isPrefixOf ip) = true) :
    (∃ rest, splitSegs ip = ofS "." :: rest) ∨
      (∃ rest, splitSegs ip = ofS ".." :: rest) := by
  rcases Bool.or_eq_true .. ▸ hrel with h1 | h1
  · left
    obtain ⟨t, ht⟩ := List.isPrefixOf_iff_prefix.mp h1
    refine ⟨splitSegs t, ?_⟩
    rw [← ht]
    rw [show (ofS "./" ++ t : Str) = ofS "." ++ '/' :: t from rfl]
    rw [splitSegs_append_slash]
    rfl
  · right
    obtain ⟨t, ht⟩ := List.isPrefixOf_iff_prefix.mp h1
    refine ⟨splitSegs t, ?_⟩
    rw [← ht]
    rw [show (ofS "../" ++ t : Str) = ofS ".." ++ '/' :: t from rfl]
    rw [splitSegs_append_slash]
    rfl

theorem ne_of_splitSegs_head {s1 s2 : Str} {h1 h2 : Str} {t1 t2 : List Str}
    (hs1 : splitSegs s1 = h1 :: t1) (hs2 : splitSegs s2 = h2 :: t2)
    (hne : h1 ≠ h2) : s1 ≠ s2 := by
  intro h
  rw [h, hs2] at hs1
  injection hs1 with hh ht
  exact hne hh.symm

theorem jsRelative_segs {cwd d : Str} {S : List Str}
    (hcwd : isAbsStr cwd = true) (hS : ∀ y ∈ S, SegNormal y)
    (hacc : (ofS "..").isPrefixOf
      (jsRelative cwd d ('/' :: joinSegs S)) = false)
    (hne : jsRelative cwd d ('/' :: joinSegs S) ≠ []) :
    ∃ tr, tr ≠ [] ∧ S = resSegs cwd [d] ++ tr ∧
      jsRelative cwd d ('/' :: joinSegs S) = joinSegs tr := by
  unfold jsRelative at hacc hne ⊢
  rw [jsResolve_abs hcwd [d], jsResolve_abs_fixed cwd hS] at hacc hne ⊢
  by_cases hft : ('/' :: joinSegs (resSegs cwd [d]) : Str) =
      '/' :: joinSegs S
  · rw [if_pos hft] at hne
    exact absurd rfl hne
  · rw [if_neg hft] at hacc hne ⊢
    rw [absSegs_abs (resSegs_normal cwd [d]), absSegs_abs hS] at hacc hne ⊢
    have hacc2 : (ofS "..").isPrefixOf
        (joinSegs ((stripCommon (resSegs cwd [d]) S).1.map
            (fun _ => (['.', '.'] : Str)) ++
          (stripCommon (resSegs cwd [d]) S).2)) = false := hacc
    cases hp1 : (stripCommon (resSegs cwd [d]) S).1 with
    | cons g gs =>
      exfalso
      rw [hp1, List.map_cons] at hacc2
      have hshape : ((fun _ => (['.', '.'] : Str)) g ::
            gs.map (fun _ => (['.', '.'] : Str)) ++
          (stripCommon (resSegs cwd [d]) S).2) =
          ofS ".." :: (gs.map (fun _ => (['.', '.'] : Str)) ++
            (stripCommon (resSegs cwd [d]) S).2) := rfl
      rw [hshape, isPrefixOf_dots_join] at hacc2
      cases hacc2
    | nil =>
      have hsc : stripCommon (resSegs cwd [d]) S =
          ([], (stripCommon (resSegs cwd [d]) S).2) := Prod.ext hp1 rfl
      have hS2 := stripCommon_fst_nil hsc
      refine ⟨(stripCommon (resSegs cwd [d]) S).2, ?_, hS2, ?_⟩
      · intro h0
        rw [h0, List.append_nil] at hS2
        exact hft (by rw [hS2])
      · show (joinSegs ((stripCommon (resSegs cwd [d]) S).1.map
            (fun _ => (['.', '.'] : Str)) ++
          (stripCommon (resSegs cwd [d]) S).2) : Str) = _
        rw [hp1, List.map_nil, List.nil_append]

/-- Witness for C8: the scenario tree with an oracle flagging every file
exits with code 1 because `src/a.ts` and `src/b.ts` are not entry
points. -/
theorem c8_exit_code_witness :
    mainExitCode (some scenarioPaths) (fun c => [c]) (ofS "/p") scenarioDisk
      scenarioFiles ⟨false, [], false⟩ = 1 :=
  (c8_exit_code scenarioPaths (fun c => [c]) (ofS "/p") scenarioDisk
      scenarioFiles ⟨false, [], false⟩ (by decide)).2
    (ofS "src/a.ts") (by decide) (ofS "import x from \"./b\"") (by decide)
    (by decide) (by decide)




theorem joinSegs_ne_nil_normals {l : List Str} (hl : l ≠ [])
    (hn : ∀ x ∈ l, SegNormal x) : joinSegs l ≠ [] := by
  cases l with
  | nil => exact absurd rfl hl
  | cons u us => exact joinSegs_ne_nil_head (hn u (List.mem_cons_self u us)).1

theorem isAbsStr_joinSegs_normals {l : List Str} (hl : l ≠ [])
    (hn : ∀ x ∈ l, SegNormal x) : isAbsStr (joinSegs l) = false := by
  cases l with
  | nil => exact absurd rfl hl
  | cons u us => exact isAbsStr_joinSegs (hn u (List.mem_cons_self u us))

theorem not_rel_of_splitSegs_head {s u : Str} {us : List Str}
    (hs : splitSegs s = u :: us) (hu : SegNormal u) :
    ((ofS "./").isPrefixOf s || (ofS "../").isPrefixOf s) = false := by
  cases hr : ((ofS "./").isPrefixOf s || (ofS "../").isPrefixOf s) with
  | false => rfl
  | true =>
    exfalso
    rcases splitSegs_head_dots hr with ⟨rest, h⟩ | ⟨rest, h⟩ <;>
      rw [h] at hs <;> injection hs with hh _
    · exact hu.2.1 hh.symm
    · exact hu.2.2.1 hh.symm

theorem transform_alias_core (fsys : Str → Bool) (cwd : Str)
    (igs : List Str) (fp ip a d : Str) (xs ka : List Str) (b : Str)
    (pmPre pmPost : PathsMap)
    (hcwd : isAbsStr cwd = true) (hip : isAbsStr ip = false)
    (hrel : ((ofS "./").isPrefixOf ip || (ofS "../").isPrefixOf ip) = true)
    (hsplit : splitSegs ip = xs ++ [b]) (hb : SegNormal b)
    (hka : a = joinSegs ka ++ ['/']) (hka1 : ka ≠ [])
    (hka2 : ∀ y ∈ ka, SegNormal y) (hd : d ≠ [])
    (hnodup : ((pmPre ++ (a, d) :: pmPost).map (fun e => e.1)).Nodup)
    (hpair : ∀ e ∈ pmPre ++ (a, d) :: pmPost,
      (e.1 <+: a ∨ a <+: e.1) → e.1 = a)
    (hnoip : ∀ e ∈ pmPre ++ (a, d) :: pmPost, e.1.isPrefixOf ip = false)
    (hig : (igs.any fun g => strIncludes g ip) = false)
    (hpre : ∀ e ∈ pmPre, (ofS "..").isPrefixOf (jsRelative cwd e.2
      (resolveImportPath cwd ip fp (pmPre ++ (a, d) :: pmPost))) = true)
    (hacc : (ofS "..").isPrefixOf (jsRelative cwd d
      (resolveImportPath cwd ip fp (pmPre ++ (a, d) :: pmPost))) = false)
    (hrne : jsRelative cwd d
      (resolveImportPath cwd ip fp (pmPre ++ (a, d) :: pmPost)) ≠ []) :
    ∃ trInit Bf,
      (∀ y ∈ trInit, SegNormal y) ∧ SegNormal Bf ∧
      resolveImportPath cwd ip fp (pmPre ++ (a, d) :: pmPost) =
        '/' :: joinSegs ((resSegs cwd [d] ++ trInit) ++ [b]) ∧
      Bf = (match getNewExtensionPathParts fsys (jsParse
          (resolveImportPath cwd ip fp (pmPre ++ (a, d) :: pmPost))) with
        | some eb =>
          if eb.base = [] then (extSplit b).1 ++ formatExt eb.ext
          else eb.base
        | none => b) ∧
      (processImport fsys cwd (pmPre ++ (a, d) :: pmPost) igs false fp
          ip).newPath = some (joinSegs ((ka ++ trInit) ++ [Bf])) ∧
      ∀ Bg : Str, SegNormal Bg →
        splitSegs (joinSegs ((ka ++ trInit) ++ [Bg])) =
          (ka ++ trInit) ++ [Bg] ∧
        isAbsStr (joinSegs ((ka ++ trInit) ++ [Bg])) = false ∧
        a.isPrefixOf (joinSegs ((ka ++ trInit) ++ [Bg])) = true ∧
        resolveImportPath cwd (joinSegs ((ka ++ trInit) ++ [Bg])) fp
            (pmPre ++ (a, d) :: pmPost) =
          '/' :: joinSegs ((resSegs cwd [d] ++ trInit) ++ [Bg]) := by
  have hres0 : resolveImportPath cwd ip fp (pmPre ++ (a, d) :: pmPost) =
      jsResolve cwd [jsDirname fp, ip] := resolveImportPath_rel hnoip
  obtain ⟨A, hA, hAn⟩ :=
    resSegs_last hcwd [jsDirname fp] (x := ip) hsplit hb (by simp)
  have hA2 : resSegs cwd [jsDirname fp, ip] = A ++ [b] := by
    have h3 : [jsDirname fp] ++ [ip] = [jsDirname fp, ip] := by simp
    rw [← h3]
    exact hA
  have hres : resolveImportPath cwd ip fp (pmPre ++ (a, d) :: pmPost) =
      '/' :: joinSegs (A ++ [b]) := by
    rw [hres0, jsResolve_abs hcwd, hA2]
  have hSn : ∀ y ∈ A ++ [b], SegNormal y := by
    intro y hy
    rcases List.mem_append.mp hy with h1 | h1
    · exact hAn y h1
    · rw [List.mem_singleton.mp h1]
      exact hb
  have hacc2 := hacc
  have hrne2 := hrne
  rw [hres] at hacc2 hrne2
  obtain ⟨tr, htrne, hStr, hrEq⟩ := jsRelative_segs hcwd hSn hacc2 hrne2
  have htrN : ∀ y ∈ tr, SegNormal y := by
    intro y hy
    exact hSn y (hStr ▸ List.mem_append_right _ hy)
  have hlast : tr.getLast? = some b := by
    have h1 : (A ++ [b]).getLast? = some b := List.getLast?_concat A
    rw [hStr, List.getLast?_append] at h1
    cases htl : tr.getLast? with
    | none =>
      exfalso
      exact htrne (List.getLast?_eq_none_iff.mp htl)
    | some x =>
      rw [htl] at h1
      simpa using h1
  have htr_eq : tr = tr.dropLast ++ [b] := by
    have h1 := List.dropLast_append_getLast htrne
    have h2 := List.getLast?_eq_getLast tr htrne
    rw [hlast] at h2
    have h3 : tr.getLast htrne = b := (Option.some.inj h2).symm
    rw [h3] at h1
    exact h1.symm
  have hAF : A = resSegs cwd [d] ++ tr.dropLast := by
    have h2 : A ++ [b] = (resSegs cwd [d] ++ tr.dropLast) ++ [b] := by
      conv_lhs => rw [hStr, htr_eq]
      rw [List.append_assoc]
    have h3 := congrArg List.dropLast h2
    rwa [List.dropLast_concat, List.dropLast_concat] at h3
  have htrIn : ∀ y ∈ tr.dropLast, SegNormal y := by
    intro y hy
    exact hAn y (hAF ▸ List.mem_append_right _ hy)
  have hresB : resolveImportPath cwd ip fp (pmPre ++ (a, d) :: pmPost) =
      '/' :: joinSegs ((resSegs cwd [d] ++ tr.dropLast) ++ [b]) := by
    rw [hres, ← hAF]
  have hrp : jsParse (resolveImportPath cwd ip fp
      (pmPre ++ (a, d) :: pmPost)) =
      ⟨['/'], (if A = [] then ['/'] else '/' :: joinSegs A), b,
        (extSplit b).2, (extSplit b).1⟩ := by
    rw [hres]
    exact jsParse_abs_segs hAn hb
  have hkatr : ka ++ tr.dropLast ≠ [] := by
    intro h
    exact hka1 (List.append_eq_nil.mp h).1
  have hkatrn : ∀ x ∈ ka ++ tr.dropLast, SegNormal x := by
    intro x hx
    rcases List.mem_append.mp hx with h1 | h1
    · exact hka2 x h1
    · exact htrIn x h1
  have hkatrnos : ∀ x ∈ ka ++ tr.dropLast, '/' ∈ x → False :=
    fun x hx => (hkatrn x hx).2.2.2
  have hDne : joinSegs (ka ++ tr.dropLast) ≠ [] :=
    joinSegs_ne_nil_normals hkatr hkatrn
  have hjoin : ∀ x : Str, joinSegs ((ka ++ tr.dropLast) ++ [x]) =
      joinSegs (ka ++ tr.dropLast) ++ '/' :: x := by
    intro x
    rw [joinSegs_append hkatr (by simp :
      ([x] : List Str) ≠ [])]
    rfl
  have houteqg : ∀ x : Str, joinSegs ((ka ++ tr.dropLast) ++ [x]) =
      a ++ joinSegs (tr.dropLast ++ [x]) := by
    intro x
    rw [List.append_assoc, joinSegs_append hka1 (by simp :
      (tr.dropLast ++ [x] : List Str) ≠ []), hka, List.append_assoc]
    rfl
  -- the alias transform inside transformParts
  have htrnos : ∀ x ∈ tr, '/' ∈ x → False := fun x hx => (htrN x hx).2.2.2
  have hD : (jsParse (a ++ joinSegs tr)).dir = joinSegs (ka ++ tr.dropLast)
      := by
    have hsp2 : splitSegs (a ++ joinSegs tr) = (ka ++ tr.dropLast) ++ [b]
        := by
      rw [hka, List.append_assoc]
      rw [show (['/'] ++ joinSegs tr : Str) = '/' :: joinSegs tr from rfl]
      rw [splitSegs_append_slash]
      rw [splitSegs_joinSegs hka1 (fun x hx => (hka2 x hx).2.2.2)]
      rw [splitSegs_joinSegs htrne htrnos]
      conv_lhs => rw [htr_eq]
      rw [List.append_assoc]
    have habs2 : isAbsStr (a ++ joinSegs tr) = false := by
      cases hkc : ka with
      | nil => exact absurd hkc hka1
      | cons kh kt =>
        rw [hka, hkc, List.append_assoc]
        exact isAbsStr_joinSegs_app (hka2 kh (hkc ▸ List.mem_cons_self kh kt))
          (['/'] ++ joinSegs tr)
    rw [jsParse_rel_of_segs habs2 hsp2 hb]
    show (if ka ++ tr.dropLast = [] then [] else joinSegs (ka ++ tr.dropLast))
        = _
    rw [if_neg hkatr]
  have halias : getAliasPathParts cwd (jsParse (resolveImportPath cwd ip fp
      (pmPre ++ (a, d) :: pmPost))) (pmPre ++ (a, d) :: pmPost) =
      some (joinSegs (ka ++ tr.dropLast)) := by
    unfold getAliasPathParts
    rw [hrp, jsFormat_abs_base hAn hb.1, ← hres]
    rw [aliasCoverLoop_first hpre hacc]
    rw [hres, hrEq, hD]
  have hp0 : jsParse ip =
      ⟨[], (if xs = [] then [] else joinSegs xs), b,
        (extSplit b).2, (extSplit b).1⟩ := jsParse_rel_of_segs hip hsplit hb
  -- the specifier produced by the rewrite differs from the original
  have hneqgen : ∀ x : Str, SegNormal x →
      (joinSegs (ka ++ tr.dropLast) ++ '/' :: x : Str) ≠ ip := by
    intro x hx
    have hs1 : splitSegs (joinSegs (ka ++ tr.dropLast) ++ '/' :: x) =
        (ka ++ tr.dropLast) ++ [x] := by
      rw [splitSegs_append_slash]
      rw [splitSegs_joinSegs hkatr hkatrnos]
      rw [splitSegs_of_noslash hx.2.2.2]
    cases hkc : ka with
    | nil => exact absurd hkc hka1
    | cons kh kt =>
      have hkhn : SegNormal kh := hka2 kh (hkc ▸ List.mem_cons_self kh kt)
      rw [hkc] at hs1
      have hs1' : splitSegs (joinSegs ((kh :: kt) ++ tr.dropLast) ++ '/' :: x)
          = kh :: ((kt ++ tr.dropLast) ++ [x]) := hs1
      rcases splitSegs_head_dots hrel with ⟨rest, hh⟩ | ⟨rest, hh⟩
      · exact ne_of_splitSegs_head hs1' hh (fun h2 => hkhn.2.1 h2)
      · exact ne_of_splitSegs_head hs1' hh (fun h2 => hkhn.2.2.1 h2)
  -- resolution of any rewritten alias-form specifier
  have houtgen : ∀ Bg : Str, SegNormal Bg →
      splitSegs (joinSegs ((ka ++ tr.dropLast) ++ [Bg])) =
        (ka ++ tr.dropLast) ++ [Bg] ∧
      isAbsStr (joinSegs ((ka ++ tr.dropLast) ++ [Bg])) = false ∧
      a.isPrefixOf (joinSegs ((ka ++ tr.dropLast) ++ [Bg])) = true ∧
      resolveImportPath cwd (joinSegs ((ka ++ tr.dropLast) ++ [Bg])) fp
          (pmPre ++ (a, d) :: pmPost) =
        '/' :: joinSegs ((resSegs cwd [d] ++ tr.dropLast) ++ [Bg]) := by
    intro Bg hBg
    have hallnorm : ∀ x ∈ (ka ++ tr.dropLast) ++ [Bg], SegNormal x := by
      intro x hx
      rcases List.mem_append.mp hx with h1 | h1
      · exact hkatrn x h1
      · rw [List.mem_singleton.mp h1]
        exact hBg
    have hsout : splitSegs (joinSegs ((ka ++ tr.dropLast) ++ [Bg])) =
        (ka ++ tr.dropLast) ++ [Bg] :=
      splitSegs_joinSegs (by simp) (fun x hx => (hallnorm x hx).2.2.2)
    have habsout : isAbsStr (joinSegs ((ka ++ tr.dropLast) ++ [Bg])) = false
        := isAbsStr_joinSegs_normals (by simp) hallnorm
    have hprefix : a.isPrefixOf (joinSegs ((ka ++ tr.dropLast) ++ [Bg])) =
        true :=
      List.isPrefixOf_iff_prefix.mpr ⟨joinSegs (tr.dropLast ++ [Bg]),
        (houteqg Bg).symm⟩
    refine ⟨hsout, habsout, hprefix, ?_⟩
    have hamem : a ∈ sortAliases ((pmPre ++ (a, d) :: pmPost).map
        (fun e => e.1)) :=
      mem_sortAliases.mpr (List.mem_map.mpr ⟨(a, d), by simp, rfl⟩)
    have hobj : objGet (pmPre ++ (a, d) :: pmPost) a = some d :=
      objGet_eq_of_mem_nodup (by simp) hnodup
    have honly : ∀ k ∈ sortAliases ((pmPre ++ (a, d) :: pmPost).map
        (fun e => e.1)),
        k.isPrefixOf (joinSegs ((ka ++ tr.dropLast) ++ [Bg])) = true →
        k = a := by
      intro k hk hkp
      obtain ⟨e, he, hek⟩ := List.mem_map.mp (mem_sortAliases.mp hk)
      have hk1 : k <+: joinSegs ((ka ++ tr.dropLast) ++ [Bg]) :=
        List.isPrefixOf_iff_prefix.mp hkp
      have ha1 : a <+: joinSegs ((ka ++ tr.dropLast) ++ [Bg]) :=
        List.isPrefixOf_iff_prefix.mp hprefix
      have hor := List.prefix_or_prefix_of_prefix hk1 ha1
      rw [← hek] at hor ⊢
      exact hpair e he hor
    unfold resolveImportPath
    rw [aliasResolveLoop_single hobj hd hprefix hamem honly]
    have hdrop : (joinSegs ((ka ++ tr.dropLast) ++ [Bg])).drop a.length =
        joinSegs (tr.dropLast ++ [Bg]) := by
      rw [houteqg Bg]
      exact List.drop_left a _
    show jsResolve cwd [d, (joinSegs ((ka ++ tr.dropLast) ++ [Bg])).drop
      a.length] = _
    rw [hdrop]
    have hJn : ∀ x ∈ tr.dropLast ++ [Bg], SegNormal x := by
      intro x hx
      rcases List.mem_append.mp hx with h1 | h1
      · exact htrIn x h1
      · rw [List.mem_singleton.mp h1]
        exact hBg
    have hJne : joinSegs (tr.dropLast ++ [Bg]) ≠ [] :=
      joinSegs_ne_nil_normals (by simp) hJn
    have hJabs : isAbsStr (joinSegs (tr.dropLast ++ [Bg])) = false :=
      isAbsStr_joinSegs_normals (by simp) hJn
    rw [jsResolve_abs hcwd]
    have h5 : [d, joinSegs (tr.dropLast ++ [Bg])] =
        [d] ++ [joinSegs (tr.dropLast ++ [Bg])] := by simp
    rw [h5, resSegs_append_rel hcwd hJne hJabs [d]]
    rw [splitSegs_joinSegs (by simp) (fun x hx => (hJn x hx).2.2.2)]
    rw [foldl_normPush_normals false hJn]
    rw [List.reverse_append, List.reverse_reverse]
    rw [List.append_assoc]
    rfl
  cases hext : getNewExtensionPathParts fsys (jsParse
      (resolveImportPath cwd ip fp (pmPre ++ (a, d) :: pmPost))) with
  | none =>
    have htp1 : (transformParts fsys cwd (pmPre ++ (a, d) :: pmPost) false
        fp ip true).1 =
        ⟨[], joinSegs (ka ++ tr.dropLast), b, (extSplit b).2,
          (extSplit b).1⟩ := by
      unfold transformParts
      simp only [hext, hp0, halias, Bool.not_false, Bool.and_true, if_true]
    have hnp1 : (processImport fsys cwd (pmPre ++ (a, d) :: pmPost) igs
        false fp ip).newPath =
        some (joinSegs ((ka ++ tr.dropLast) ++ [b])) := by
      unfold processImport
      simp only [hrel, Bool.true_or, Bool.not_true, Bool.false_eq_true,
        if_false, hig]
      rw [htp1, jsFormat_rel_mk hDne, if_neg hb.1, if_neg (hneqgen b hb)]
      rw [hjoin b]
    exact ⟨tr.dropLast, b, htrIn, hb, hresB, rfl, hnp1, houtgen⟩
  | some eb =>
    have hBfx : SegNormal (if eb.base = [] then
        (extSplit b).1 ++ formatExt eb.ext else eb.base) := by
      by_cases hebb : eb.base = []
      · rw [if_pos hebb]
        have heb2 : eb = ⟨eb.ext, []⟩ := by
          cases eb
          simp only at hebb
          rw [hebb]
        have hprobe : extProbe fsys (jsParse (resolveImportPath cwd ip fp
            (pmPre ++ (a, d) :: pmPost))) ALLOWED_EXTENSIONS = some eb := by
          unfold getNewExtensionPathParts at hext
          split at hext
          · exfalso
            have h6 : eb.base = b := by
              have h7 := (Option.some.inj hext)
              rw [← h7, hrp]
            rw [hebb] at h6
            exact hb.1 h6.symm
          · exact hext
        rw [extProbe_eq_find] at hprobe
        obtain ⟨e, hfe, hfeb⟩ := Option.map_eq_some'.mp hprobe
        have hemem : e ∈ ALLOWED_EXTENSIONS := List.mem_of_find?_eq_some hfe
        have hebe : eb.ext = e := by rw [← hfeb]
        rw [hebe]
        have hfmt : formatExt e = e := by
          unfold ALLOWED_EXTENSIONS ofS at hemem
          rcases List.mem_cons.mp hemem with h1 | h1
          · rw [h1]; decide
          · rcases List.mem_cons.mp h1 with h2 | h2
            · rw [h2]; decide
            · rcases List.mem_cons.mp h2 with h3 | h3
              · rw [h3]; decide
              · simp at h3
        rw [hfmt]
        refine seg_normal_append_ext (extSplit_name_ne hb.1) ?_ hemem
        intro hsl
        refine hb.2.2.2 ?_
        rw [← extSplit_recomb b]
        exact List.mem_append_left _ hsl
      · rw [if_neg hebb]
        have h6 : eb.base = b := by
          unfold getNewExtensionPathParts at hext
          split at hext
          · have h7 := (Option.some.inj hext)
            rw [← h7, hrp]
          · rw [extProbe_eq_find] at hext
            obtain ⟨e, hfe, hfeb⟩ := Option.map_eq_some'.mp hext
            exfalso
            refine hebb ?_
            rw [← hfeb]
        rw [h6]
        exact hb
    have htp1 : (transformParts fsys cwd (pmPre ++ (a, d) :: pmPost) false
        fp ip true).1 =
        ⟨[], joinSegs (ka ++ tr.dropLast), eb.base, eb.ext,
          (extSplit b).1⟩ := by
      unfold transformParts
      simp only [hext, hp0, halias, Bool.not_false, Bool.and_true, if_true]
    have hnp1 : (processImport fsys cwd (pmPre ++ (a, d) :: pmPost) igs
        false fp ip).newPath =
        some (joinSegs ((ka ++ tr.dropLast) ++ [if eb.base = [] then
          (extSplit b).1 ++ formatExt eb.ext else eb.base])) := by
      unfold processImport
      simp only [hrel, Bool.true_or, Bool.not_true, Bool.false_eq_true,
        if_false, hig]
      rw [htp1, jsFormat_rel_mk hDne, if_neg (hneqgen _ hBfx)]
      rw [hjoin]
    exact ⟨tr.dropLast, _, htrIn, hBfx, hresB, rfl, hnp1, houtgen⟩

theorem c5_nonlookup_amended_witness :
    processImport (fun _ => false) (ofS "/p") (getPathsMap scenarioPaths) []
      true (ofS "src/a.ts") (ofS "./styles.css") = ⟨none, []⟩ :=
  c5_nonlookup_amended (fun _ => false) (ofS "/p") (getPathsMap scenarioPaths)
    [] true (ofS "src/a.ts") (ofS "./styles.css") [ofS "."]
    (ofS "styles.css") (by decide) (by decide) (by decide) (by decide)
    (by decide) (by decide) (Or.inl rfl)

theorem lastDotSplit_none_of_nodot {cs : Str} (h : '.' ∈ cs → False) :
    lastDotSplit cs = none := by
  induction cs with
  | nil => rfl
  | cons c r ih =>
    unfold lastDotSplit
    rw [ih (fun hr => h (List.mem_cons_of_mem c hr))]
    rw [if_neg (fun hc => h (by simp [hc]))]

theorem lastDotSplit_append_nodot (cs : Str) (hcs : '.' ∈ cs → False) :
    ∀ N : Str, lastDotSplit (N ++ '.' :: cs) = some (N, cs) := by
  intro N
  induction N with
  | nil =>
    show lastDotSplit ('.' :: cs) = some ([], cs)
    unfold lastDotSplit
    rw [lastDotSplit_none_of_nodot hcs]
    simp
  | cons c r ih =>
    show lastDotSplit (c :: (r ++ '.' :: cs)) = some (c :: r, cs)
    unfold lastDotSplit
    rw [ih]

theorem extSplit_append_dot {N cs : Str} (hN : N ≠ [])
    (hcs : '.' ∈ cs → False) (hcsne : cs ≠ []) :
    extSplit (N ++ '.' :: cs) = (N, '.' :: cs) := by
  unfold extSplit
  rw [if_neg (by
    intro h
    have hl := congrArg List.length h
    rw [List.length_append] at hl
    have h1 : N.length ≥ 1 := List.length_pos.mpr hN
    have h2 : cs.length ≥ 1 := List.length_pos.mpr hcsne
    simp at hl
    omega)]
  rw [lastDotSplit_append_nodot cs hcs N]
  simp only
  rw [if_neg hN]

/-- C3 counterexample: with the legal nested alias table mapping `x/` to
`/t/` and `x/y/` to `/u/`, the relative specifier `./y/z.ts` in file
`/t/f.ts` resolves to `/t/y/z.ts`, which lies under the alias directory
`/t/` (its relative path `y/z.ts` has no parent marker), and with
`skipAlias` off the pass rewrites it to the alias form `x/y/z.ts`; but the
rewritten specifier resolves through the longer key `x/y/` to `/u/z.ts`,
not to the original file: the round trip of C3 fails. -/
theorem c3_counterexample :
    (ofS "..").isPrefixOf (jsRelative (ofS "/c") (ofS "/t/")
      (resolveImportPath (ofS "/c") (ofS "./y/z.ts") (ofS "/t/f.ts")
        c3Pm)) = false ∧
    processImport (fun p => p = ofS "/t/y/z.ts") (ofS "/c") c3Pm [] false
        (ofS "/t/f.ts") (ofS "./y/z.ts") = ⟨some (ofS "x/y/z.ts"), []⟩ ∧
    resolveImportPath (ofS "/c") (ofS "./y/z.ts") (ofS "/t/f.ts") c3Pm =
      ofS "/t/y/z.ts" ∧
    resolveImportPath (ofS "/c") (ofS "x/y/z.ts") (ofS "/t/f.ts") c3Pm =
      ofS "/u/z.ts" ∧
    (ofS "/u/z.ts" : Str) ≠ ofS "/t/y/z.ts" :=
  ⟨by decide, by decide, by decide, by decide, by decide⟩

/-- C3 amended: under an absolute working directory, a normal-form
relative specifier none of whose alias keys prefix it, and a well-formed
alias table — segment-boundary keys, nonempty targets, no duplicate and no
nested keys — if the resolved path lies under the target directory of an
alias (the first accepting one in insertion order), then with `skipAlias`
off the rewritten specifier is in alias form (the alias key is a string
prefix of it), and it resolves to the same absolute path as the original
specifier up to the extension substituted by the extension step: the two
resolutions share every segment except the final basename, and the
rewritten basename is exactly the original stem with the extension the
extension step substituted (the full original basename when the step
passes the path through or finds no candidate); in the latter cases the
two resolved paths are byte-identical. -/
theorem c3_roundtrip_amended (fsys : Str → Bool) (cwd : Str)
    (igs : List Str) (fp ip a d : Str) (xs ka : List Str) (b : Str)
    (pmPre pmPost : PathsMap)
    (hcwd : isAbsStr cwd = true) (hip : isAbsStr ip = false)
    (hrel : ((ofS "./").isPrefixOf ip || (ofS "../").isPrefixOf ip) = true)
    (hsplit : splitSegs ip = xs ++ [b]) (hb : SegNormal b)
    (hka : a = joinSegs ka ++ ['/']) (hka1 : ka ≠ [])
    (hka2 : ∀ y ∈ ka, SegNormal y) (hd : d ≠ [])
    (hnodup : ((pmPre ++ (a, d) :: pmPost).map (fun e => e.1)).Nodup)
    (hpair : ∀ e ∈ pmPre ++ (a, d) :: pmPost,
      (e.1 <+: a ∨ a <+: e.1) → e.1 = a)
    (hnoip : ∀ e ∈ pmPre ++ (a, d) :: pmPost, e.1.isPrefixOf ip = false)
    (hig : (igs.any fun g => strIncludes g ip) = false)
    (hpre : ∀ e ∈ pmPre, (ofS "..").isPrefixOf (jsRelative cwd e.2
      (resolveImportPath cwd ip fp (pmPre ++ (a, d) :: pmPost))) = true)
    (hacc : (ofS "..").isPrefixOf (jsRelative cwd d
      (resolveImportPath cwd ip fp (pmPre ++ (a, d) :: pmPost))) = false)
    (hrne : jsRelative cwd d
      (resolveImportPath cwd ip fp (pmPre ++ (a, d) :: pmPost)) ≠ []) :
    ∃ out A Bf,
      (processImport fsys cwd (pmPre ++ (a, d) :: pmPost) igs false fp
        ip).newPath = some out ∧
      a.isPrefixOf out = true ∧
      resolveImportPath cwd ip fp (pmPre ++ (a, d) :: pmPost) =
        '/' :: joinSegs (A ++ [b]) ∧
      resolveImportPath cwd out fp (pmPre ++ (a, d) :: pmPost) =
        '/' :: joinSegs (A ++ [Bf]) ∧
      Bf = (match getNewExtensionPathParts fsys (jsParse
          (resolveImportPath cwd ip fp (pmPre ++ (a, d) :: pmPost))) with
        | some eb =>
          if eb.base = [] then (extSplit b).1 ++ formatExt eb.ext
          else eb.base
        | none => b) ∧
      ((getNewExtensionPathParts fsys (jsParse (resolveImportPath cwd ip fp
          (pmPre ++ (a, d) :: pmPost))) = none ∨
        getNewExtensionPathParts fsys (jsParse (resolveImportPath cwd ip fp
          (pmPre ++ (a, d) :: pmPost))) = some ⟨(extSplit b).2, b⟩) →
        Bf = b) := by
  obtain ⟨trInit, Bf, htrIn, hBfn, hres, hBfeq, hnp, hout⟩ :=
    transform_alias_core fsys cwd igs fp ip a d xs ka b pmPre pmPost hcwd
      hip hrel hsplit hb hka hka1 hka2 hd hnodup hpair hnoip hig hpre hacc
      hrne
  obtain ⟨hsOut, habsOut, hpref, hresout⟩ := hout Bf hBfn
  refine ⟨joinSegs ((ka ++ trInit) ++ [Bf]), resSegs cwd [d] ++ trInit, Bf,
    hnp, hpref, hres, hresout, hBfeq, ?_⟩
  intro hd2
  rcases hd2 with h1 | h1
  · rw [hBfeq, h1]
  · rw [hBfeq, h1]
    show (if (b : Str) = []
      then (extSplit b).1 ++ formatExt (extSplit b).2 else b) = b
    rw [if_neg hb.1]

/-- Witness for the amended C3 at the scenario configuration: alias table
mapping the tilde prefix to `./src/`, file `src/a.ts`, specifier `./b`
with `src/b.ts` on disk. -/
theorem c3_roundtrip_amended_witness :
    ∃ out A Bf,
      (processImport (fun p => p = ofS "/p/src/b.ts") (ofS "/p")
        ([] ++ (ofS "~/", ofS "./src/") :: []) [] false (ofS "src/a.ts")
        (ofS "./b")).newPath = some out ∧
      (ofS "~/").isPrefixOf out = true ∧
      resolveImportPath (ofS "/p") (ofS "./b") (ofS "src/a.ts")
          ([] ++ (ofS "~/", ofS "./src/") :: []) =
        '/' :: joinSegs (A ++ [ofS "b"]) ∧
      resolveImportPath (ofS "/p") out (ofS "src/a.ts")
          ([] ++ (ofS "~/", ofS "./src/") :: []) =
        '/' :: joinSegs (A ++ [Bf]) ∧
      Bf = (match getNewExtensionPathParts (fun p => p = ofS "/p/src/b.ts")
          (jsParse (resolveImportPath (ofS "/p") (ofS "./b")
            (ofS "src/a.ts") ([] ++ (ofS "~/", ofS "./src/") :: []))) with
        | some eb =>
          if eb.base = [] then (extSplit (ofS "b")).1 ++ formatExt eb.ext
          else eb.base
        | none => ofS "b") ∧
      ((getNewExtensionPathParts (fun p => p = ofS "/p/src/b.ts")
          (jsParse (resolveImportPath (ofS "/p") (ofS "./b")
            (ofS "src/a.ts") ([] ++ (ofS "~/", ofS "./src/") :: []))) =
          none ∨
        getNewExtensionPathParts (fun p => p = ofS "/p/src/b.ts")
          (jsParse (resolveImportPath (ofS "/p") (ofS "./b")
            (ofS "src/a.ts") ([] ++ (ofS "~/", ofS "./src/") :: []))) =
          some ⟨(extSplit (ofS "b")).2, ofS "b"⟩) →
        Bf = ofS "b") :=
  c3_roundtrip_amended (fun p => p = ofS "/p/src/b.ts") (ofS "/p") []
    (ofS "src/a.ts") (ofS "./b") (ofS "~/") (ofS "./src/") [ofS "."]
    [ofS "~"] (ofS "b") [] [] (by decide) (by decide) (by decide)
    (by decide) (by decide) (by decide) (by decide) (by decide) (by decide)
    (by decide) (by decide) (by decide) (by decide) (by decide) (by decide)
    (by decide)

/-- C4 counterexample: on the nested alias table `x/` to `/t/`, `x/y/` to
`/u/`, the first `write` run rewrites `./y/z` in `/t/f.ts` to
`x/y/z.ts`; running the pass again on the resulting tree rewrites that
specifier once more — it now resolves through the longer key `x/y/` to
`/u/z.ts` and the extension probe finds `/u/z.tsx` — so the second run
changes a specifier and writes a file: the first run's output is not a
fixed point. -/
theorem c4_counterexample :
    (fixImports (some c4Paths) (ofS "/c") c4Disk c4Files
        ⟨true, [], false⟩).transformed =
      [(ofS "/t/f.ts", [(ofS "./y/z", ofS "x/y/z.ts")])] ∧
    (fixImports (some c4Paths) (ofS "/c")
        (fixImports (some c4Paths) (ofS "/c") c4Disk c4Files
          ⟨true, [], false⟩).disk c4Files ⟨true, [], false⟩).transformed =
      [(ofS "/t/f.ts", [(ofS "x/y/z.ts", ofS "x/y/z.tsx")])] ∧
    (fixImports (some c4Paths) (ofS "/c")
        (fixImports (some c4Paths) (ofS "/c") c4Disk c4Files
          ⟨true, [], false⟩).disk c4Files ⟨true, [], false⟩).disk ≠
      (fixImports (some c4Paths) (ofS "/c") c4Disk c4Files
        ⟨true, [], false⟩).disk :=
  ⟨by decide, by decide, by decide⟩

/-- C4 amended: under the same well-formedness conditions as the amended
round trip — absolute working directory, normal-form relative specifier
covered by an alias with nonempty target, no duplicate or nested alias
keys, no key prefixing the specifier — a specifier rewritten by one pass
is left unchanged by a second pass over the written tree: the extension
probe re-finds the same on-disk file behind the substituted extension and
the alias-form specifier is not rewritten again. -/
theorem c4_idempotent_amended (fsys : Str → Bool) (cwd : Str)
    (fp ip a d : Str) (xs ka : List Str) (b : Str)
    (pmPre pmPost : PathsMap)
    (hcwd : isAbsStr cwd = true) (hip : isAbsStr ip = false)
    (hrel : ((ofS "./").isPrefixOf ip || (ofS "../").isPrefixOf ip) = true)
    (hsplit : splitSegs ip = xs ++ [b]) (hb : SegNormal b)
    (hka : a = joinSegs ka ++ ['/']) (hka1 : ka ≠ [])
    (hka2 : ∀ y ∈ ka, SegNormal y) (hd : d ≠ [])
    (hnodup : ((pmPre ++ (a, d) :: pmPost).map (fun e => e.1)).Nodup)
    (hpair : ∀ e ∈ pmPre ++ (a, d) :: pmPost,
      (e.1 <+: a ∨ a <+: e.1) → e.1 = a)
    (hnoip : ∀ e ∈ pmPre ++ (a, d) :: pmPost, e.1.isPrefixOf ip = false)
    (hpre : ∀ e ∈ pmPre, (ofS "..").isPrefixOf (jsRelative cwd e.2
      (resolveImportPath cwd ip fp (pmPre ++ (a, d) :: pmPost))) = true)
    (hacc : (ofS "..").isPrefixOf (jsRelative cwd d
      (resolveImportPath cwd ip fp (pmPre ++ (a, d) :: pmPost))) = false)
    (hrne : jsRelative cwd d
      (resolveImportPath cwd ip fp (pmPre ++ (a, d) :: pmPost)) ≠ []) :
    ∀ out, (processImport fsys cwd (pmPre ++ (a, d) :: pmPost) [] false fp
        ip).newPath = some out →
      (processImport fsys cwd (pmPre ++ (a, d) :: pmPost) [] false fp
        out).newPath = none := by
  obtain ⟨trInit, Bf, htrIn, hBfn, hresIp, hBfeq, hnp, hout⟩ :=
    transform_alias_core fsys cwd [] fp ip a d xs ka b pmPre pmPost hcwd
      hip hrel hsplit hb hka hka1 hka2 hd hnodup hpair hnoip rfl hpre hacc
      hrne
  intro out hsome
  have houtv : out = joinSegs ((ka ++ trInit) ++ [Bf]) := by
    rw [hnp] at hsome
    exact (Option.some.inj hsome).symm
  subst houtv
  have hkatr : ka ++ trInit ≠ [] := fun h => hka1 (List.append_eq_nil.mp h).1
  have hkatrn : ∀ x ∈ ka ++ trInit, SegNormal x := by
    intro x hx
    rcases List.mem_append.mp hx with h1 | h1
    · exact hka2 x h1
    · exact htrIn x h1
  have hDne : joinSegs (ka ++ trInit) ≠ [] :=
    joinSegs_ne_nil_normals hkatr hkatrn
  have hFtrn : ∀ y ∈ resSegs cwd [d] ++ trInit, SegNormal y := by
    intro y hy
    rcases List.mem_append.mp hy with h1 | h1
    · exact resSegs_normal cwd [d] y h1
    · exact htrIn y h1
  have hjoin2 : ∀ x : Str, joinSegs ((ka ++ trInit) ++ [x]) =
      joinSegs (ka ++ trInit) ++ '/' :: x := by
    intro x
    rw [joinSegs_append hkatr (by simp : ([x] : List Str) ≠ [])]
    rfl
  -- a second pass leaves the specifier alone whenever its extension step
  -- reproduces the basename
  have hsecond : ∀ Bg : Str, SegNormal Bg →
      (getNewExtensionPathParts fsys (jsParse (resolveImportPath cwd
          (joinSegs ((ka ++ trInit) ++ [Bg])) fp
          (pmPre ++ (a, d) :: pmPost))) = none ∨
        (∃ eb, getNewExtensionPathParts fsys (jsParse (resolveImportPath
            cwd (joinSegs ((ka ++ trInit) ++ [Bg])) fp
            (pmPre ++ (a, d) :: pmPost))) = some eb ∧
          (if eb.base = [] then (extSplit Bg).1 ++ formatExt eb.ext
            else eb.base) = Bg)) →
      (processImport fsys cwd (pmPre ++ (a, d) :: pmPost) [] false fp
        (joinSegs ((ka ++ trInit) ++ [Bg]))).newPath = none := by
    intro Bg hBg hcase
    obtain ⟨hsOut, habsOut, hprefOut, hresOut⟩ := hout Bg hBg
    have hisRel2 : ((ofS "./").isPrefixOf (joinSegs ((ka ++ trInit) ++
        [Bg])) || (ofS "../").isPrefixOf (joinSegs ((ka ++ trInit) ++
        [Bg]))) = false := by
      cases hkc : ka with
      | nil => exact absurd hkc hka1
      | cons kh kt =>
        rw [hkc] at hsOut
        exact not_rel_of_splitSegs_head hsOut
          (hka2 kh (hkc ▸ List.mem_cons_self kh kt))
    have hisAl2 : ((pmPre ++ (a, d) :: pmPost).any
        (fun e => e.1.isPrefixOf (joinSegs ((ka ++ trInit) ++ [Bg])))) =
        true := List.any_eq_true.mpr ⟨(a, d), by simp, hprefOut⟩
    have hp0out : jsParse (joinSegs ((ka ++ trInit) ++ [Bg])) =
        ⟨[], (if ka ++ trInit = [] then [] else joinSegs (ka ++ trInit)),
          Bg, (extSplit Bg).2, (extSplit Bg).1⟩ :=
      jsParse_rel_of_segs habsOut hsOut hBg
    unfold processImport
    simp only [hisRel2, Bool.false_or, hisAl2, Bool.not_true,
      Bool.false_eq_true, if_false, List.any_nil]
    rcases hcase with hnone | ⟨eb, heb, hbase⟩
    · have htp2 : (transformParts fsys cwd (pmPre ++ (a, d) :: pmPost)
          false fp (joinSegs ((ka ++ trInit) ++ [Bg])) false).1 =
          jsParse (joinSegs ((ka ++ trInit) ++ [Bg])) := by
        unfold transformParts
        simp only [hnone, Bool.false_and, Bool.false_eq_true, if_false]
      rw [htp2, format_parse_rel habsOut hsOut hBg, if_pos rfl]
    · have htp2 : (transformParts fsys cwd (pmPre ++ (a, d) :: pmPost)
          false fp (joinSegs ((ka ++ trInit) ++ [Bg])) false).1 =
          ⟨[], joinSegs (ka ++ trInit), eb.base, eb.ext,
            (extSplit Bg).1⟩ := by
        unfold transformParts
        simp only [heb, hp0out, Bool.false_and, Bool.false_eq_true,
          if_false]
        rw [if_neg hkatr]
      rw [htp2, jsFormat_rel_mk hDne, hbase, hjoin2 Bg, if_pos rfl]
  -- the parse of the resolved original specifier
  have hrp1 : jsParse (resolveImportPath cwd ip fp
      (pmPre ++ (a, d) :: pmPost)) =
      ⟨['/'], (if resSegs cwd [d] ++ trInit = [] then ['/'] else
        '/' :: joinSegs (resSegs cwd [d] ++ trInit)), b,
        (extSplit b).2, (extSplit b).1⟩ := by
    rw [hresIp]
    exact jsParse_abs_segs hFtrn hb
  have hrp2g : ∀ Bg : Str, SegNormal Bg →
      jsParse (resolveImportPath cwd (joinSegs ((ka ++ trInit) ++ [Bg]))
        fp (pmPre ++ (a, d) :: pmPost)) =
      ⟨['/'], (if resSegs cwd [d] ++ trInit = [] then ['/'] else
        '/' :: joinSegs (resSegs cwd [d] ++ trInit)), Bg,
        (extSplit Bg).2, (extSplit Bg).1⟩ := by
    intro Bg hBg
    rw [(hout Bg hBg).2.2.2]
    exact jsParse_abs_segs hFtrn hBg
  have hNne : (extSplit b).1 ≠ [] := extSplit_name_ne hb.1
  by_cases hlk : tsExtensionLookups.contains (extSplit b).2 = true
  · -- the extension is in the lookup set: the probe runs
    have hstep : ∀ (p : ParsedPath) (e : Str) (rest : List Str),
        extProbe fsys p (e :: rest) =
          if fsys (jsFormat (changeExtension p e)) = true then
            some ⟨e, []⟩
          else extProbe fsys p rest := fun p e rest => rfl
    have hfmtX : ∀ B0 E0 N' e : Str,
        jsFormat (changeExtension ⟨['/'],
          (if resSegs cwd [d] ++ trInit = [] then ['/'] else
            '/' :: joinSegs (resSegs cwd [d] ++ trInit)), B0, E0, N'⟩ e) =
        '/' :: joinSegs ((resSegs cwd [d] ++ trInit) ++
          [N' ++ formatExt e]) := by
      intro B0 E0 N' e
      show jsFormat ⟨['/'],
        (if resSegs cwd [d] ++ trInit = [] then ['/'] else
          '/' :: joinSegs (resSegs cwd [d] ++ trInit)), [], e, N'⟩ = _
      have h := @jsFormat_abs_full (resSegs cwd [d] ++ trInit) ([] : Str)
        e N' hFtrn
      rw [if_pos rfl] at h
      exact h
    have hchaing : ∀ B0 E0 N' : Str,
        extProbe fsys ⟨['/'],
          (if resSegs cwd [d] ++ trInit = [] then ['/'] else
            '/' :: joinSegs (resSegs cwd [d] ++ trInit)), B0, E0, N'⟩
          ALLOWED_EXTENSIONS =
        (if fsys ('/' :: joinSegs ((resSegs cwd [d] ++ trInit) ++
            [N' ++ formatExt (ofS ".ts")])) = true then
          some ⟨ofS ".ts", []⟩
        else if fsys ('/' :: joinSegs ((resSegs cwd [d] ++ trInit) ++
            [N' ++ formatExt (ofS ".tsx")])) = true then
          some ⟨ofS ".tsx", []⟩
        else if fsys ('/' :: joinSegs ((resSegs cwd [d] ++ trInit) ++
            [N' ++ formatExt (ofS ".d.ts")])) = true then
          some ⟨ofS ".d.ts", []⟩
        else none) := by
      intro B0 E0 N'
      show extProbe fsys _ [ofS ".ts", ofS ".tsx", ofS ".d.ts"] = _
      rw [hstep, hstep, hstep, hfmtX, hfmtX, hfmtX]
      rfl
    have hGN2 : ∀ B0 E0 N' : Str, tsExtensionLookups.contains E0 = true →
        getNewExtensionPathParts fsys ⟨['/'],
          (if resSegs cwd [d] ++ trInit = [] then ['/'] else
            '/' :: joinSegs (resSegs cwd [d] ++ trInit)), B0, E0, N'⟩ =
        extProbe fsys ⟨['/'],
          (if resSegs cwd [d] ++ trInit = [] then ['/'] else
            '/' :: joinSegs (resSegs cwd [d] ++ trInit)), B0, E0, N'⟩
          ALLOWED_EXTENSIONS := by
      intro B0 E0 N' hE
      unfold getNewExtensionPathParts
      rw [show tsExtensionLookups.contains (ParsedPath.ext ⟨['/'],
        (if resSegs cwd [d] ++ trInit = [] then ['/'] else
          '/' :: joinSegs (resSegs cwd [d] ++ trInit)), B0, E0, N'⟩) =
        true from hE]
      rfl
    by_cases h1 : fsys ('/' :: joinSegs ((resSegs cwd [d] ++ trInit) ++
        [(extSplit b).1 ++ formatExt (ofS ".ts")])) = true
    · -- the candidate .ts exists on disk
      have hext1 : getNewExtensionPathParts fsys (jsParse
          (resolveImportPath cwd ip fp (pmPre ++ (a, d) :: pmPost))) =
          some ⟨ofS ".ts", []⟩ := by
        rw [hrp1, hGN2 _ _ _ hlk, hchaing, if_pos h1]
      have hBfv : Bf = (extSplit b).1 ++ formatExt (ofS ".ts") := by
        rw [hBfeq, hext1]
        show (if ([] : Str) = [] then
          (extSplit b).1 ++ formatExt (ofS ".ts") else []) = _
        rw [if_pos rfl]
      subst hBfv
      have hsp : extSplit ((extSplit b).1 ++ formatExt (ofS ".ts")) =
          ((extSplit b).1, ofS ".ts") := by
        rw [show formatExt (ofS ".ts") = '.' :: ofS "ts" from rfl]
        exact extSplit_append_dot hNne (by decide) (by decide)
      have hrp2 : jsParse (resolveImportPath cwd (joinSegs ((ka ++ trInit)
          ++ [(extSplit b).1 ++ formatExt (ofS ".ts")])) fp
          (pmPre ++ (a, d) :: pmPost)) =
          ⟨['/'], (if resSegs cwd [d] ++ trInit = [] then ['/'] else
            '/' :: joinSegs (resSegs cwd [d] ++ trInit)),
            (extSplit b).1 ++ formatExt (ofS ".ts"), ofS ".ts",
            (extSplit b).1⟩ := by
        rw [hrp2g _ hBfn, hsp]
      apply hsecond _ hBfn
      refine Or.inr ⟨⟨ofS ".ts", []⟩, ?_, ?_⟩
      · rw [hrp2, hGN2 _ _ _ (by decide), hchaing, if_pos h1]
      · show (if ([] : Str) = [] then
          (extSplit ((extSplit b).1 ++ formatExt (ofS ".ts"))).1 ++
            formatExt (ofS ".ts") else []) = _
        rw [if_pos rfl, hsp]
    · by_cases h2 : fsys ('/' :: joinSegs ((resSegs cwd [d] ++ trInit) ++
          [(extSplit b).1 ++ formatExt (ofS ".tsx")])) = true
      · -- the candidate .tsx exists on disk
        have hext1 : getNewExtensionPathParts fsys (jsParse
            (resolveImportPath cwd ip fp (pmPre ++ (a, d) :: pmPost))) =
            some ⟨ofS ".tsx", []⟩ := by
          rw [hrp1, hGN2 _ _ _ hlk, hchaing, if_neg h1, if_pos h2]
        have hBfv : Bf = (extSplit b).1 ++ formatExt (ofS ".tsx") := by
          rw [hBfeq, hext1]
          show (if ([] : Str) = [] then
            (extSplit b).1 ++ formatExt (ofS ".tsx") else []) = _
          rw [if_pos rfl]
        subst hBfv
        have hsp : extSplit ((extSplit b).1 ++ formatExt (ofS ".tsx")) =
            ((extSplit b).1, ofS ".tsx") := by
          rw [show formatExt (ofS ".tsx") = '.' :: ofS "tsx" from rfl]
          exact extSplit_append_dot hNne (by decide) (by decide)
        have hrp2 : jsParse (resolveImportPath cwd (joinSegs ((ka ++
            trInit) ++ [(extSplit b).1 ++ formatExt (ofS ".tsx")])) fp
            (pmPre ++ (a, d) :: pmPost)) =
            ⟨['/'], (if resSegs cwd [d] ++ trInit = [] then ['/'] else
              '/' :: joinSegs (resSegs cwd [d] ++ trInit)),
              (extSplit b).1 ++ formatExt (ofS ".tsx"), ofS ".tsx",
              (extSplit b).1⟩ := by
          rw [hrp2g _ hBfn, hsp]
        apply hsecond _ hBfn
        refine Or.inr ⟨⟨ofS ".tsx", []⟩, ?_, ?_⟩
        · rw [hrp2, hGN2 _ _ _ (by decide), hchaing, if_neg h1, if_pos h2]
        · show (if ([] : Str) = [] then
            (extSplit ((extSplit b).1 ++ formatExt (ofS ".tsx"))).1 ++
              formatExt (ofS ".tsx") else []) = _
          rw [if_pos rfl, hsp]
      · by_cases h3 : fsys ('/' :: joinSegs ((resSegs cwd [d] ++ trInit)
            ++ [(extSplit b).1 ++ formatExt (ofS ".d.ts")])) = true
        · -- the candidate .d.ts exists on disk
          have hext1 : getNewExtensionPathParts fsys (jsParse
              (resolveImportPath cwd ip fp (pmPre ++ (a, d) :: pmPost))) =
              some ⟨ofS ".d.ts", []⟩ := by
            rw [hrp1, hGN2 _ _ _ hlk, hchaing, if_neg h1, if_neg h2,
              if_pos h3]
          have hBfv : Bf = (extSplit b).1 ++ formatExt (ofS ".d.ts") := by
            rw [hBfeq, hext1]
            show (if ([] : Str) = [] then
              (extSplit b).1 ++ formatExt (ofS ".d.ts") else []) = _
            rw [if_pos rfl]
          subst hBfv
          have hdne : (extSplit b).1 ++ ofS ".d" ≠ [] :=
            fun h => hNne (List.append_eq_nil.mp h).1
          have hsp : extSplit ((extSplit b).1 ++ formatExt (ofS ".d.ts"))
              = ((extSplit b).1 ++ ofS ".d", ofS ".ts") := by
            rw [show ((extSplit b).1 ++ formatExt (ofS ".d.ts") : Str) =
              ((extSplit b).1 ++ ofS ".d") ++ '.' :: ofS "ts" from by
                rw [List.append_assoc]
                rfl]
            exact extSplit_append_dot hdne (by decide) (by decide)
          have hstr : (((extSplit b).1 ++ ofS ".d") ++
              formatExt (ofS ".ts") : Str) =
              (extSplit b).1 ++ formatExt (ofS ".d.ts") := by
            rw [List.append_assoc]
            rfl
          have hrp2 : jsParse (resolveImportPath cwd (joinSegs ((ka ++
              trInit) ++ [(extSplit b).1 ++ formatExt (ofS ".d.ts")])) fp
              (pmPre ++ (a, d) :: pmPost)) =
              ⟨['/'], (if resSegs cwd [d] ++ trInit = [] then ['/'] else
                '/' :: joinSegs (resSegs cwd [d] ++ trInit)),
                (extSplit b).1 ++ formatExt (ofS ".d.ts"), ofS ".ts",
                (extSplit b).1 ++ ofS ".d"⟩ := by
            rw [hrp2g _ hBfn, hsp]
          apply hsecond _ hBfn
          refine Or.inr ⟨⟨ofS ".ts", []⟩, ?_, ?_⟩
          · rw [hrp2, hGN2 _ _ _ (by decide), hchaing, hstr, if_pos h3]
          · show (if ([] : Str) = [] then
              (extSplit ((extSplit b).1 ++ formatExt (ofS ".d.ts"))).1 ++
                formatExt (ofS ".ts") else []) = _
            rw [if_pos rfl, hsp]
            exact hstr
        · -- no candidate exists: the probe fails in both passes
          have hext1 : getNewExtensionPathParts fsys (jsParse
              (resolveImportPath cwd ip fp (pmPre ++ (a, d) :: pmPost))) =
              none := by
            rw [hrp1, hGN2 _ _ _ hlk, hchaing, if_neg h1, if_neg h2,
              if_neg h3]
          have hBfv : Bf = b := by
            rw [hBfeq, hext1]
          rw [hBfv]
          apply hsecond b hb
          refine Or.inl ?_
          rw [hrp2g b hb]
          rw [hGN2 _ _ _ hlk, hchaing, if_neg h1, if_neg h2, if_neg h3]
  · -- the extension is outside the lookup set: pass-through both times
    have hlkf : tsExtensionLookups.contains (extSplit b).2 = false := by
      revert hlk
      cases tsExtensionLookups.contains (extSplit b).2 <;> simp
    have hext1 : getNewExtensionPathParts fsys (jsParse
        (resolveImportPath cwd ip fp (pmPre ++ (a, d) :: pmPost))) =
        some ⟨(extSplit b).2, b⟩ := by
      rw [hrp1]
      exact getNewExtensionPathParts_pass hlkf
    have hBfv : Bf = b := by
      rw [hBfeq, hext1]
      show (if (b : Str) = [] then
        (extSplit b).1 ++ formatExt (extSplit b).2 else b) = b
      rw [if_neg hb.1]
    rw [hBfv]
    apply hsecond b hb
    refine Or.inr ⟨⟨(extSplit b).2, b⟩, ?_, ?_⟩
    · rw [hrp2g b hb]
      exact getNewExtensionPathParts_pass hlkf
    · show (if (b : Str) = [] then
        (extSplit b).1 ++ formatExt (extSplit b).2 else b) = b
      rw [if_neg hb.1]

/-- Witness for the amended C4 at the scenario configuration: the first
pass rewrites `./b` to `~/b.ts`, and a pass over the rewritten specifier
leaves it unchanged. -/
theorem c4_idempotent_amended_witness :
    (processImport (fun p => p = ofS "/p/src/b.ts") (ofS "/p")
      ([] ++ (ofS "~/", ofS "./src/") :: []) [] false (ofS "src/a.ts")
      (ofS "~/b.ts")).newPath = none :=
  c4_idempotent_amended (fun p => p = ofS "/p/src/b.ts") (ofS "/p")
    (ofS "src/a.ts") (ofS "./b") (ofS "~/") (ofS "./src/") [ofS "."]
    [ofS "~"] (ofS "b") [] [] (by decide) (by decide) (by decide)
    (by decide) (by decide) (by decide) (by decide) (by decide) (by decide)
    (by decide) (by decide) (by decide) (by decide) (by decide) (by decide)
    (ofS "~/b.ts") (by decide)
